import Mathlib

/-! Verification of the flowers decision tree (`tree.cc`, namespace `fdt`).

The C++ program is shallowly embedded: `double` feature values are modelled
as rationals (the program only compares, adds and halves them), the
entropy-based gain computation is modelled over the reals with `Real.logb`,
the loops become structural recursions, and the two
`std::uniform_int_distribution` draws of `find_best` become explicit
arguments (`r2` for the three-way draw, `r1` for the two-way draw). -/

namespace Fdt

/-- Feature enum of the source: sepal length/width, petal length/width. -/
inductive Feature : Type
  | SL | SW | PL | PW
deriving DecidableEq

/-- A Flower record: four feature values and the parsed integer class code
(`setosa = 0`, `versicolor = 1`, `virginica = 2`; `read_from` casts any
parsed integer, so the code is kept as an unconstrained integer). -/
structure Flower : Type where
  sl : ℚ
  sw : ℚ
  pl : ℚ
  pw : ℚ
  cls : ℤ
deriving DecidableEq

instance : Inhabited Flower := ⟨⟨0, 0, 0, 0, 0⟩⟩

/-- Flower::feature: the value of a feature for this flower. -/
def Flower.feature (x : Flower) : Feature → ℚ
  | .SL => x.sl
  | .SW => x.sw
  | .PL => x.pl
  | .PW => x.pw

/-- Node::count_class: the number of flowers of class 0, 1 and 2 in a
partition; any other class code is counted by none of the three counters. -/
def count_class : List Flower → ℕ × ℕ × ℕ
  | [] => (0, 0, 0)
  | x :: xs =>
    if x.cls = 0 then
      ((count_class xs).1 + 1, (count_class xs).2.1, (count_class xs).2.2)
    else if x.cls = 1 then
      ((count_class xs).1, (count_class xs).2.1 + 1, (count_class xs).2.2)
    else if x.cls = 2 then
      ((count_class xs).1, (count_class xs).2.1, (count_class xs).2.2 + 1)
    else count_class xs

/-- Node::find_best: the leaf-label decision on class counts `(a, b, c)`.
`r2` stands for the `std::uniform_int_distribution<int>(0,2)` draw and `r1`
for the `(0,1)` draw made by the function's `std::mt19937` generator. -/
def find_best (r2 r1 : ℕ) (a b c : ℕ) : ℕ :=
  if a = b ∧ b = c then r2
  else if a = b ∧ c < b then r1
  else if b = c ∧ a < c then 1 + r1
  else if c = a ∧ b < a then 2 * r1
  else if a = b then 2
  else if b = c then 0
  else if c = a then 1
  else (if a < b ∧ c < b then 1 else 0) + 2 * (if a < c ∧ b < c then 1 else 0)

/-- Ordering relation used by Node::sort_flowers_by: compare flowers on one
feature.  `std::sort` with the strict comparator produces some order that is
`Pairwise` non-strictly sorted on the feature; the embedding fixes one such
order with insertion sort (tie order is unobservable in what follows). -/
def feature_le (f : Feature) (x y : Flower) : Prop := x.feature f ≤ y.feature f

instance (f : Feature) : DecidableRel (feature_le f) := fun x y =>
  inferInstanceAs (Decidable (x.feature f ≤ y.feature f))

instance (f : Feature) : IsTotal Flower (feature_le f) :=
  ⟨fun x y => le_total (x.feature f) (y.feature f)⟩

instance (f : Feature) : IsTrans Flower (feature_le f) :=
  ⟨fun _ _ _ h1 h2 => le_trans h1 h2⟩

/-- Node::sort_flowers_by: sort the partition by one feature's value. -/
def sort_flowers_by (f : Feature) (fl : List Flower) : List Flower :=
  List.insertionSort (feature_le f) fl

/-- The feature value of the flower at index `j` of a partition (the
default flower stands for the C++ out-of-bounds read, which never happens
on the paths proved below). -/
def featAt (f : Feature) (s : List Flower) (j : ℕ) : ℚ :=
  (s.getD j default).feature f

/-- The linealogarithm `x * log2 x` (0 at 0) of the source. -/
noncomputable def linlog (x : ℝ) : ℝ := if x = 0 then 0 else x * Real.logb 2 x

/-- The entropy function `I` of the source. -/
noncomputable def I (x y z : ℝ) : ℝ := 0 - linlog x - linlog y - linlog z

/-- Node::gain: the information gain of the tentative split of a node's
partition into `l` and `r` (the node's own partition being `l ++ r`);
`0` when either side holds no counted flower, before any division. -/
noncomputable def gain (l r : List Flower) : ℝ :=
  let a : ℕ := (count_class (l ++ r)).1
  let b : ℕ := (count_class (l ++ r)).2.1
  let c : ℕ := (count_class (l ++ r)).2.2
  let a1 : ℕ := (count_class l).1
  let b1 : ℕ := (count_class l).2.1
  let c1 : ℕ := (count_class l).2.2
  let a2 : ℕ := (count_class r).1
  let b2 : ℕ := (count_class r).2.1
  let c2 : ℕ := (count_class r).2.2
  let total : ℕ := a + b + c
  let total1 : ℕ := a1 + b1 + c1
  let total2 : ℕ := a2 + b2 + c2
  if total1 = 0 ∨ total2 = 0 then 0
  else
    I ((a : ℝ) / total) ((b : ℝ) / total) ((c : ℝ) / total)
      - ((total1 : ℝ) / total) * I ((a1 : ℝ) / total1) ((b1 : ℝ) / total1) ((c1 : ℝ) / total1)
      - ((total2 : ℝ) / total) * I ((a2 : ℝ) / total2) ((b2 : ℝ) / total2) ((c2 : ℝ) / total2)

/-- The inner loop of Node::max_gain: advance `sp` to the first position at
which the sorted feature value changes (or to the end of the partition). -/
def next_change (f : Feature) (s : List Flower) (sp : ℕ) : ℕ :=
  if sp < s.length then
    if featAt f s (sp - 1) ≠ featAt f s sp then sp
    else next_change f s (sp + 1)
  else sp
termination_by s.length - sp

/-- Helper: `next_change` never moves backwards. -/
lemma next_change_ge (f : Feature) (s : List Flower) (sp : ℕ) :
    sp ≤ next_change f s sp := by
  rw [next_change]
  split_ifs with h1 h2
  · exact le_refl sp
  · have := next_change_ge f s (sp + 1)
    omega
  · exact le_refl sp
termination_by s.length - sp

/-- The outer loop of Node::max_gain: starting from candidate position
`sp`, with running maximum `cur` and its index `idx`, walk the candidate
split points.  After each evaluated candidate at position `p` the loop
variable is incremented twice (once in the loop body, once in the `for`
update), so the scan resumes at `p + 2`. -/
noncomputable def max_gain_loop (f : Feature) (s : List Flower) (sp : ℕ) (cur : ℝ)
    (idx : ℕ) : ℝ × ℕ :=
  if sp < s.length then
    if cur < gain (s.take (next_change f s sp)) (s.drop (next_change f s sp)) then
      max_gain_loop f s (next_change f s sp + 2)
        (gain (s.take (next_change f s sp)) (s.drop (next_change f s sp)))
        (next_change f s sp)
    else max_gain_loop f s (next_change f s sp + 2) cur idx
  else (cur, idx)
termination_by s.length - sp
decreasing_by
  all_goals
    have := next_change_ge f s sp
    omega

/-- The result of Node::max_gain: the maximum gain found, the retained
split index, the threshold (midpoint of the two adjacent sorted feature
values at that index), and the node's partition as mutated (sorted). -/
structure MGResult where
  g : ℝ
  idx : ℕ
  thr : ℚ
  fls : List Flower

/-- Node::max_gain: sort the partition by `f`, walk the candidate split
points with initial `index = 1` and `cur_max = 0`, and retain threshold and
sorted partition. -/
noncomputable def max_gain (f : Feature) (fl : List Flower) : MGResult :=
  ⟨(max_gain_loop f (sort_flowers_by f fl) 1 0 1).1,
   (max_gain_loop f (sort_flowers_by f fl) 1 0 1).2,
   (featAt f (sort_flowers_by f fl) ((max_gain_loop f (sort_flowers_by f fl) 1 0 1).2 - 1) +
      featAt f (sort_flowers_by f fl) ((max_gain_loop f (sort_flowers_by f fl) 1 0 1).2)) / 2,
   sort_flowers_by f fl⟩

/-- The four probing calls `max_gain(SL) .. max_gain(PW)` of
Node::build_tree, each operating on the list as left by the previous one. -/
noncomputable def probe (fl : List Flower) : MGResult × MGResult × MGResult × MGResult :=
  (max_gain .SL fl,
   max_gain .SW (max_gain .SL fl).fls,
   max_gain .PL (max_gain .SW (max_gain .SL fl).fls).fls,
   max_gain .PW (max_gain .PL (max_gain .SW (max_gain .SL fl).fls).fls).fls)

/-- The feature-selection chain of Node::build_tree: the first feature (in
declared order SL, SW, PL, PW) whose best gain is `≥` all the others. -/
noncomputable def choose_feature (g1 g2 g3 g4 : ℝ) : Feature :=
  if g1 ≥ g2 ∧ g1 ≥ g3 ∧ g1 ≥ g4 then .SL
  else if g2 ≥ g1 ∧ g2 ≥ g3 ∧ g2 ≥ g4 then .SW
  else if g3 ≥ g1 ∧ g3 ≥ g2 ∧ g3 ≥ g4 then .PL
  else .PW

/-- The purity/depth loop heading Node::build_tree, with the source's
bounds checks made explicit: `some true` means "become a leaf", `some
false` means "a class change was found, go split", `none` means the loop
would read out of bounds (which happens exactly on an empty partition with
the depth budget not yet exhausted). -/
def purity_scan (maxD : ℕ) (fl : List Flower) (posLen : ℕ) (i : ℕ) : Option Bool :=
  if i + 1 = fl.length ∨ maxD = posLen then some true
  else
    match _h1 : fl[i]?, _h2 : fl[i + 1]? with
    | some x, some y =>
      if x.cls ≠ y.cls then some false
      else purity_scan maxD fl posLen (i + 1)
    | _, _ => none
termination_by fl.length - i
decreasing_by
  have : i + 1 < fl.length := (List.getElem?_eq_some_iff.mp _h2).1
  omega

/-- A finished tree node, as the source's Node: a leaf retains its decided
label (the digit written into `feature_`), the partition and position; an
internal node retains the chosen feature, threshold, its partition (as
sorted by the final `max_gain` call), position and two children. -/
inductive NodeT : Type
  | leaf (label : ℕ) (flowers : List Flower) (position : String)
  | node (f : Feature) (threshold : ℚ) (flowers : List Flower)
      (position : String) (left right : NodeT)

/-- The partition a node retains. -/
def flowersOf : NodeT → List Flower
  | .leaf _ fs _ => fs
  | .node _ _ fs _ _ _ => fs

/-- The position label a node retains. -/
def positionOf : NodeT → String
  | .leaf _ _ p => p
  | .node _ _ _ p _ _ => p

/-- Node::make_leaf: count the classes and decide the label with
find_best; `drw` supplies the two random draws for this leaf's position. -/
def make_leaf (drw : String → ℕ × ℕ) (fl : List Flower) (pos : String) : NodeT :=
  .leaf (find_best (drw pos).1 (drw pos).2 (count_class fl).1 (count_class fl).2.1
    (count_class fl).2.2) fl pos

/-- The feature Node::build_tree selects when it commits a split: the
if-chain over the four probed gains. -/
noncomputable def chosen_of (fl : List Flower) : Feature :=
  choose_feature (probe fl).1.g (probe fl).2.1.g (probe fl).2.2.1.g (probe fl).2.2.2.g

/-- The recomputed `max_gain` of the chosen feature, whose index, threshold
and sorted partition Node::build_tree commits to. -/
noncomputable def commit (fl : List Flower) : MGResult :=
  max_gain (chosen_of fl) (probe fl).2.2.2.fls

/-- Node::build_tree, with a structural fuel argument: `none` means the
fuel ran out or the purity loop read out of bounds; every actual run is
shown below to return `some` on nonempty partitions with fuel at least the
partition size. -/
noncomputable def build_tree (maxD : ℕ) (drw : String → ℕ × ℕ) :
    ℕ → List Flower → String → Option NodeT
  | 0, _, _ => none
  | fuel + 1, fl, pos =>
    match purity_scan maxD fl pos.length 0 with
    | none => none
    | some true => some (make_leaf drw fl pos)
    | some false =>
      if (probe fl).1.g = 0 ∧ (probe fl).2.1.g = 0 ∧ (probe fl).2.2.1.g = 0 ∧
          (probe fl).2.2.2.g = 0 then
        some (make_leaf drw (probe fl).2.2.2.fls pos)
      else
        match build_tree maxD drw fuel ((commit fl).fls.take (commit fl).idx) (pos ++ "L"),
              build_tree maxD drw fuel ((commit fl).fls.drop (commit fl).idx) (pos ++ "R") with
        | some lt, some rt => some (.node (chosen_of fl) (commit fl).thr (commit fl).fls pos lt rt)
        | _, _ => none

/-- Node::validate_flower: walk the finished tree comparing the flower's
value of each internal node's feature with the node's threshold, and at a
leaf report whether the flower's class code equals the leaf's label (the
source compares the two decimal strings, which is the same test). -/
def validate_flower (t : NodeT) (x : Flower) : Bool :=
  match t with
  | .node f thr _ _ l r =>
    if x.feature f < thr then validate_flower l x else validate_flower r x
  | .leaf lab _ _ => x.cls = (lab : ℤ)

/-- Modelled from the spec: `classify(sample) -> classLabel` (spec §4.2),
the read-only traversal returning the reached leaf's stored label;
`validate_flower` is the source's fused traversal-and-compare. -/
def classify (t : NodeT) (x : Flower) : ℤ :=
  match t with
  | .node f thr _ _ l r =>
    if x.feature f < thr then classify l x else classify r x
  | .leaf lab _ _ => (lab : ℤ)

/-- The accuracy numerator of `main`: how many flowers of a set the
finished tree validates. -/
def correct_count (t : NodeT) (l : List Flower) : ℕ :=
  (l.filter (fun x => validate_flower t x)).length

/-- The validation slice `[vb, ve)` taken by `main`. -/
def validation_set (all : List Flower) (vb ve : ℕ) : List Flower :=
  (all.take ve).drop vb

/-- The training set of `main`: the input with the validation slice erased. -/
def training_set (all : List Flower) (vb ve : ℕ) : List Flower :=
  all.take vb ++ all.drop ve

/-- Node::set_max_depth: the process-wide depth bound is the configured
depth plus the length of the root's position label. -/
def effective_max_depth (depth : ℕ) (rootPos : String) : ℕ :=
  depth + rootPos.length

/-- The subtree relation on finished trees. -/
inductive Subtree : NodeT → NodeT → Prop
  | refl (t : NodeT) : Subtree t t
  | left {t l r : NodeT} {f : Feature} {thr : ℚ} {fs : List Flower} {p : String} :
      Subtree t l → Subtree t (.node f thr fs p l r)
  | right {t l r : NodeT} {f : Feature} {thr : ℚ} {fs : List Flower} {p : String} :
      Subtree t r → Subtree t (.node f thr fs p l r)

/-! Feature selection. -/

/-- Selector mapping each feature to its probed best gain. -/
noncomputable def gain_at (g1 g2 g3 g4 : ℝ) : Feature → ℝ
  | .SL => g1
  | .SW => g2
  | .PL => g3
  | .PW => g4

/-- Declaration order of the four features. -/
def feature_rank : Feature → ℕ
  | .SL => 0
  | .SW => 1
  | .PL => 2
  | .PW => 3

/-! The structural invariants of finished trees. -/

/-- The split invariant of C3, recursively at every internal node: the two
children partition the node's flowers exactly, the left one strictly below
the threshold, the right one at or above it, the threshold being the
midpoint of the two adjacent sorted feature values at a split index with
positive gain. -/
def SplitInv : NodeT → Prop
  | .leaf _ _ _ => True
  | .node f thr flw p l r =>
      (flowersOf l ++ flowersOf r).Perm flw ∧
      (∀ x ∈ flowersOf l, x.feature f < thr) ∧
      (∀ x ∈ flowersOf r, thr ≤ x.feature f) ∧
      (∃ j, 1 ≤ j ∧ j < flw.length ∧
        thr = (featAt f flw (j - 1) + featAt f flw j) / 2 ∧
        (flowersOf l).Perm (flw.take j) ∧ (flowersOf r).Perm (flw.drop j) ∧
        0 < gain (flw.take j) (flw.drop j)) ∧
      positionOf l = p ++ "L" ∧ positionOf r = p ++ "R" ∧
      SplitInv l ∧ SplitInv r

/-- The depth invariant of C7, recursively at every leaf: the position
label never grows past the effective maximum depth. -/
def DepthInv (maxD : ℕ) : NodeT → Prop
  | .leaf _ _ p => p.length ≤ maxD
  | .node _ _ _ _ l r => DepthInv maxD l ∧ DepthInv maxD r


/-- Helper: `count_class` as three `countP` computations. -/
lemma count_class_eq_countP (l : List Flower) :
    count_class l =
      (l.countP (fun x => decide (x.cls = 0)),
       l.countP (fun x => decide (x.cls = 1)),
       l.countP (fun x => decide (x.cls = 2))) := by
  induction l with
  | nil => simp [count_class]
  | cons x xs ih =>
    simp only [count_class, ih, List.countP_cons]
    split_ifs <;> simp_all

/-- Helper: `count_class` only depends on the multiset of flowers. -/
lemma count_class_perm {l1 l2 : List Flower} (h : l1.Perm l2) :
    count_class l1 = count_class l2 := by
  simp only [count_class_eq_countP]
  rw [h.countP_eq, h.countP_eq, h.countP_eq]

/-- Helper: `count_class` is additive over append. -/
lemma count_class_append (l1 l2 : List Flower) :
    count_class (l1 ++ l2) =
      ((count_class l1).1 + (count_class l2).1,
       (count_class l1).2.1 + (count_class l2).2.1,
       (count_class l1).2.2 + (count_class l2).2.2) := by
  simp [count_class_eq_countP, List.countP_append]

/-- Helper: each class counter is at most the partition size, and the three
counters sum to at most the partition size. -/
lemma count_class_sum_le (l : List Flower) :
    (count_class l).1 + (count_class l).2.1 + (count_class l).2.2 ≤ l.length := by
  induction l with
  | nil => simp [count_class]
  | cons x xs ih =>
    simp only [count_class, List.length_cons]
    split_ifs <;> (try dsimp only) <;> omega

/-! Basic facts about the sorted partition. -/

/-- Helper: sorting is a permutation. -/
lemma sort_perm (f : Feature) (fl : List Flower) : (sort_flowers_by f fl).Perm fl :=
  List.perm_insertionSort (feature_le f) fl

/-- Helper: the sorted partition is `Pairwise` ordered on the feature. -/
lemma sort_sorted (f : Feature) (fl : List Flower) :
    List.Sorted (feature_le f) (sort_flowers_by f fl) :=
  List.sorted_insertionSort (feature_le f) fl

/-- Helper: `featAt` through `getElem?`. -/
lemma featAt_eq (f : Feature) (s : List Flower) (j : ℕ) :
    featAt f s j = ((s.map (fun x => x.feature f))[j]?).getD ((default : Flower).feature f) := by
  rw [featAt, List.getElem?_map]
  cases h : s[j]? with
  | none => simp [List.getD_eq_getElem?_getD, h]
  | some x => simp [List.getD_eq_getElem?_getD, h]

/-- Helper: two partitions with the same feature-value sequence have the
same `featAt` everywhere. -/
lemma featAt_congr {f : Feature} {s1 s2 : List Flower}
    (h : s1.map (fun x => x.feature f) = s2.map (fun x => x.feature f)) (j : ℕ) :
    featAt f s1 j = featAt f s2 j := by
  rw [featAt_eq, featAt_eq, h]

/-- Helper: sorted partitions that are permutations of each other carry the
same feature-value sequence. -/
lemma map_feature_eq_of_perm_sorted {f : Feature} {s1 s2 : List Flower}
    (hp : s1.Perm s2) (h1 : List.Sorted (feature_le f) s1)
    (h2 : List.Sorted (feature_le f) s2) :
    s1.map (fun x => x.feature f) = s2.map (fun x => x.feature f) := by
  have h1' : List.Sorted (fun a b : ℚ => a ≤ b) (s1.map (fun x => x.feature f)) := by
    rw [List.Sorted, List.pairwise_map]
    exact h1
  have h2' : List.Sorted (fun a b : ℚ => a ≤ b) (s2.map (fun x => x.feature f)) := by
    rw [List.Sorted, List.pairwise_map]
    exact h2
  exact List.eq_of_perm_of_sorted (hp.map _) h1' h2'

/-- Helper: in a sorted partition, feature values are monotone in the index. -/
lemma featAt_mono {f : Feature} {s : List Flower} (hs : List.Sorted (feature_le f) s)
    {i j : ℕ} (hij : i ≤ j) (hj : j < s.length) : featAt f s i ≤ featAt f s j := by
  rcases Nat.eq_or_lt_of_le hij with rfl | hlt
  · exact le_refl _
  · have hi : i < s.length := lt_trans hlt hj
    rw [featAt, featAt, List.getD_eq_getElem _ _ hi, List.getD_eq_getElem _ _ hj]
    exact (List.pairwise_iff_getElem.mp hs) i j hi hj hlt

/-- Helper: the flower at an in-bounds index is a member. -/
lemma getD_mem {s : List Flower} {j : ℕ} (h : j < s.length) : s.getD j default ∈ s := by
  rw [List.getD_eq_getElem _ _ h]
  exact List.getElem_mem h

/-! Facts about `next_change`. -/

/-- Helper: `next_change` stops at the partition's end, or at a position
where the feature value changes. -/
lemma next_change_spec (f : Feature) (s : List Flower) (sp : ℕ) :
    next_change f s sp ≤ max sp s.length ∧
    (next_change f s sp < s.length →
      featAt f s (next_change f s sp - 1) ≠ featAt f s (next_change f s sp)) := by
  rw [next_change]
  split_ifs with h1 h2
  · exact ⟨le_max_of_le_right (le_of_lt h1), fun _ => h2⟩
  · have ih := next_change_spec f s (sp + 1)
    constructor
    · have : sp + 1 ≤ s.length := h1
      omega
    · exact ih.2
  · exact ⟨le_max_left _ _, fun h => absurd h h1⟩
termination_by s.length - sp

/-- Helper: `next_change` only looks at the feature-value sequence. -/
lemma next_change_congr {f : Feature} {s1 s2 : List Flower}
    (hlen : s1.length = s2.length)
    (hf : ∀ j, featAt f s1 j = featAt f s2 j) (sp : ℕ) :
    next_change f s1 sp = next_change f s2 sp := by
  conv_lhs => rw [next_change]
  conv_rhs => rw [next_change]
  rw [← hlen, hf (sp - 1), hf sp]
  split_ifs with h1 h2
  · rfl
  · exact next_change_congr hlen hf (sp + 1)
  · rfl
termination_by s1.length - sp

/-! Facts about `gain`. -/

/-- Helper: the gain of a split with an empty right side is zero. -/
lemma gain_right_nil (l : List Flower) : gain l [] = 0 := by
  simp [gain, count_class]

/-- Helper: `gain` only depends on the two class-count triples (the
parent's counts being their componentwise sum). -/
lemma gain_congr_counts {l1 r1 l2 r2 : List Flower}
    (hl : count_class l1 = count_class l2) (hr : count_class r1 = count_class r2) :
    gain l1 r1 = gain l2 r2 := by
  simp only [gain, count_class_append, hl, hr]

/-- Helper: `gain` of a split with zero counted flowers on a side is zero
before any division is performed. -/
lemma gain_of_total_eq_zero {l r : List Flower}
    (h : (count_class l).1 + (count_class l).2.1 + (count_class l).2.2 = 0 ∨
      (count_class r).1 + (count_class r).2.1 + (count_class r).2.2 = 0) :
    gain l r = 0 := by
  simp only [gain]
  rw [if_pos]
  omega

/-- Helper: if `gain l r ≠ 0` then both sides hold a counted flower, hence
are nonempty. -/
lemma gain_ne_zero_nonempty {l r : List Flower} (h : gain l r ≠ 0) :
    l ≠ [] ∧ r ≠ [] := by
  constructor
  · rintro rfl
    exact h (gain_of_total_eq_zero (Or.inl (by simp [count_class])))
  · rintro rfl
    exact h (gain_right_nil l)

/-- Helper: below a change point every feature value is strictly below the
change point's value; from it on, at least that value. -/
lemma take_eq_filter_of_changepoint {f : Feature} {s : List Flower}
    (hs : List.Sorted (feature_le f) s) {p : ℕ} (hp1 : 1 ≤ p) (hpn : p < s.length)
    (hch : featAt f s (p - 1) ≠ featAt f s p) :
    s.take p = s.filter (fun x => decide (x.feature f < featAt f s p)) := by
  have hprev : featAt f s (p - 1) < featAt f s p := by
    rcases lt_or_eq_of_le (featAt_mono hs (Nat.sub_le p 1) hpn) with h | h
    · exact h
    · exact absurd h hch
  have htake : s.filter (fun x => decide (x.feature f < featAt f s p)) =
      (s.take p).filter (fun x => decide (x.feature f < featAt f s p)) ++
      (s.drop p).filter (fun x => decide (x.feature f < featAt f s p)) := by
    rw [← List.filter_append, List.take_append_drop]
  rw [htake, List.filter_eq_self.mpr, List.filter_eq_nil_iff.mpr, List.append_nil]
  · intro x hx
    obtain ⟨j, hj, hxj⟩ := List.mem_iff_getElem.mp hx
    have hjlen : j < s.length := by
      have := hj
      simp only [List.length_drop] at this
      omega
    have hpjlen : p + j < s.length := by
      have := hj
      simp only [List.length_drop] at this
      omega
    have hjp : (s.drop p)[j] = s[p + j] := List.getElem_drop _
    simp only [decide_eq_true_eq, not_lt]
    have : featAt f s p ≤ featAt f s (p + j) := featAt_mono hs (Nat.le_add_right p j) (by simp at hj; omega)
    calc featAt f s p ≤ featAt f s (p + j) := this
      _ = x.feature f := by
        rw [featAt, List.getD_eq_getElem _ _ (show p + j < s.length by simp at hj; omega),
          ← hjp, hxj]
  · intro x hx
    obtain ⟨j, hj, hxj⟩ := List.mem_iff_getElem.mp hx
    have hjp : j < p := by
      have := hj
      simp only [List.length_take] at this
      omega
    have hjlen : j < s.length := lt_trans hjp hpn
    have hget : (s.take p)[j] = s[j] := List.getElem_take _
    have hle : featAt f s j ≤ featAt f s (p - 1) := featAt_mono hs (by omega) (by omega)
    simp only [decide_eq_true_eq]
    have hxf : x.feature f = featAt f s j := by
      rw [featAt, List.getD_eq_getElem _ _ hjlen, ← hget, hxj]
    rw [hxf]
    exact lt_of_le_of_lt hle hprev

/-- Helper: class counts of the prefix below a change point only depend on
the multiset of the partition (given sortedness and the feature-value
sequence). -/
lemma count_take_congr {f : Feature} {s1 s2 : List Flower} (hp : s1.Perm s2)
    (h1 : List.Sorted (feature_le f) s1) (h2 : List.Sorted (feature_le f) s2)
    {p : ℕ} (hp1 : 1 ≤ p) (hpn : p < s1.length)
    (hch : featAt f s1 (p - 1) ≠ featAt f s1 p) :
    count_class (s1.take p) = count_class (s2.take p) := by
  have hmap := map_feature_eq_of_perm_sorted hp h1 h2
  have hlen : s1.length = s2.length := hp.length_eq
  have hch2 : featAt f s2 (p - 1) ≠ featAt f s2 p := by
    rw [← featAt_congr hmap, ← featAt_congr hmap]
    exact hch
  rw [take_eq_filter_of_changepoint h1 hp1 hpn hch,
    take_eq_filter_of_changepoint h2 hp1 (hlen ▸ hpn) hch2]
  apply count_class_perm
  rw [← featAt_congr hmap p]
  exact hp.filter _

/-- Helper: with whole-list and prefix class counts equal, the suffix class
counts agree too. -/
lemma count_class_drop_congr {s1 s2 : List Flower} (p : ℕ)
    (hw : count_class s1 = count_class s2)
    (ht : count_class (s1.take p) = count_class (s2.take p)) :
    count_class (s1.drop p) = count_class (s2.drop p) := by
  have e1 := count_class_append (s1.take p) (s1.drop p)
  rw [List.take_append_drop] at e1
  have e2 := count_class_append (s2.take p) (s2.drop p)
  rw [List.take_append_drop] at e2
  have h3 := e1.symm.trans (hw.trans e2)
  rw [ht] at h3
  have f1 := congrArg (fun t : ℕ × ℕ × ℕ => t.1) h3
  have f2 := congrArg (fun t : ℕ × ℕ × ℕ => t.2.1) h3
  have f3 := congrArg (fun t : ℕ × ℕ × ℕ => t.2.2) h3
  simp only at f1 f2 f3
  simp only [Prod.ext_iff]
  refine ⟨?_, ?_, ?_⟩ <;> omega

/-! The invariant of the candidate walk: the running maximum is
nonnegative, the retained index stays in `[1, n)` on partitions of at
least two flowers, and a positive running maximum is the gain of the split
at the retained index, which sits at a feature-value change point. -/

/-- Helper: invariant of `max_gain_loop`. -/
lemma max_gain_loop_spec (f : Feature) (s : List Flower) (hs2 : 2 ≤ s.length)
    (sp : ℕ) (cur : ℝ) (idx : ℕ) (hsp : 1 ≤ sp) (hcur : 0 ≤ cur)
    (hidx1 : 1 ≤ idx) (hidxn : idx < s.length)
    (hcp : 0 < cur → featAt f s (idx - 1) ≠ featAt f s idx ∧
      gain (s.take idx) (s.drop idx) = cur) :
    0 ≤ (max_gain_loop f s sp cur idx).1 ∧
    1 ≤ (max_gain_loop f s sp cur idx).2 ∧
    (max_gain_loop f s sp cur idx).2 < s.length ∧
    (0 < (max_gain_loop f s sp cur idx).1 →
      featAt f s ((max_gain_loop f s sp cur idx).2 - 1) ≠
        featAt f s (max_gain_loop f s sp cur idx).2 ∧
      gain (s.take (max_gain_loop f s sp cur idx).2)
          (s.drop (max_gain_loop f s sp cur idx).2) =
        (max_gain_loop f s sp cur idx).1) := by
  rw [max_gain_loop]
  split_ifs with h1 h2
  · have hpge : sp ≤ next_change f s sp := next_change_ge f s sp
    have hpspec := next_change_spec f s sp
    have hplen : next_change f s sp < s.length := by
      by_contra hge
      push_neg at hge
      have hdrop : s.drop (next_change f s sp) = [] := List.drop_eq_nil_of_le hge
      rw [hdrop, gain_right_nil] at h2
      exact absurd h2 (not_lt_of_le hcur)
    exact max_gain_loop_spec f s hs2 (next_change f s sp + 2) _ (next_change f s sp)
      (by omega) (le_of_lt (lt_of_le_of_lt hcur h2)) (by omega) hplen
      (fun _ => ⟨hpspec.2 hplen, rfl⟩)
  · exact max_gain_loop_spec f s hs2 (next_change f s sp + 2) cur idx
      (by have := next_change_ge f s sp; omega) hcur hidx1 hidxn hcp
  · exact ⟨hcur, hidx1, hidxn, hcp⟩
termination_by s.length - sp
decreasing_by
  all_goals
    have := next_change_ge f s sp
    omega

/-- Helper: the candidate walk computes the same maximum and index on any
two sorted permutations of the same partition. -/
lemma max_gain_loop_congr {f : Feature} {s1 s2 : List Flower} (hp : s1.Perm s2)
    (h1 : List.Sorted (feature_le f) s1) (h2 : List.Sorted (feature_le f) s2)
    (sp : ℕ) (cur : ℝ) (idx : ℕ) (hsp : 1 ≤ sp) :
    max_gain_loop f s1 sp cur idx = max_gain_loop f s2 sp cur idx := by
  have hmap := map_feature_eq_of_perm_sorted hp h1 h2
  have hlen : s1.length = s2.length := hp.length_eq
  have hf : ∀ j, featAt f s1 j = featAt f s2 j := featAt_congr hmap
  have hnc : next_change f s1 sp = next_change f s2 sp := next_change_congr hlen hf sp
  have hcand : gain (s1.take (next_change f s1 sp)) (s1.drop (next_change f s1 sp)) =
      gain (s2.take (next_change f s1 sp)) (s2.drop (next_change f s1 sp)) := by
    by_cases hin : next_change f s1 sp < s1.length
    · have hge : sp ≤ next_change f s1 sp := next_change_ge f s1 sp
      have hch := (next_change_spec f s1 sp).2 hin
      have htk : count_class (s1.take (next_change f s1 sp)) =
          count_class (s2.take (next_change f s1 sp)) :=
        count_take_congr hp h1 h2 (by omega) hin hch
      have hdr := count_class_drop_congr (next_change f s1 sp) (count_class_perm hp) htk
      exact gain_congr_counts htk hdr
    · push_neg at hin
      rw [List.drop_eq_nil_of_le hin, List.drop_eq_nil_of_le (hlen ▸ hin),
        gain_right_nil, gain_right_nil]
  conv_lhs => rw [max_gain_loop]
  conv_rhs => rw [max_gain_loop]
  rw [← hlen, ← hnc, hcand]
  split_ifs with hin hlt
  · exact max_gain_loop_congr hp h1 h2 _ _ _ (by have := next_change_ge f s1 sp; omega)
  · exact max_gain_loop_congr hp h1 h2 _ _ _ (by have := next_change_ge f s1 sp; omega)
  · rfl
termination_by s1.length - sp
decreasing_by
  all_goals
    have := next_change_ge f s1 sp
    omega

/-- Helper: `max_gain` returns equal gain, index and threshold on
permutations of the same partition, and permuted sorted lists. -/
lemma max_gain_congr {f : Feature} {l1 l2 : List Flower} (hp : l1.Perm l2) :
    (max_gain f l1).g = (max_gain f l2).g ∧
    (max_gain f l1).idx = (max_gain f l2).idx ∧
    (max_gain f l1).thr = (max_gain f l2).thr ∧
    (max_gain f l1).fls.Perm (max_gain f l2).fls := by
  have hp' : (sort_flowers_by f l1).Perm (sort_flowers_by f l2) :=
    ((sort_perm f l1).trans hp).trans (sort_perm f l2).symm
  have hmap := map_feature_eq_of_perm_sorted hp' (sort_sorted f l1) (sort_sorted f l2)
  have hloop := max_gain_loop_congr hp' (sort_sorted f l1) (sort_sorted f l2) 1 0 1 (le_refl 1)
  refine ⟨?_, ?_, ?_, hp'⟩
  · simp only [max_gain, hloop]
  · simp only [max_gain, hloop]
  · simp only [max_gain, hloop, featAt_congr hmap]

/-! Facts about the purity/depth loop. -/

/-- Helper: on a nonempty partition the purity loop never reads out of
bounds (every access happens at an index below the stop index). -/
lemma purity_scan_isSome (maxD pL : ℕ) {fl : List Flower} (i : ℕ) (hi : i < fl.length) :
    (purity_scan maxD fl pL i).isSome := by
  rw [purity_scan]
  split_ifs with h1
  · rfl
  · push_neg at h1
    have hi1 : i + 1 < fl.length := by omega
    have e1 : fl[i]? = some fl[i] := List.getElem?_eq_getElem hi
    have e2 : fl[i + 1]? = some fl[i + 1] := List.getElem?_eq_getElem hi1
    split
    · split_ifs
      · rfl
      · exact purity_scan_isSome maxD pL (i + 1) hi1
    · rename_i hcatch
      exact absurd (hcatch _ _ e1 e2) (fun h => h)
termination_by fl.length - i

/-- Helper: a `some false` scan result means the depth budget was not
exhausted and a class change was found between two in-bounds indices, so
the partition has at least two flowers. -/
lemma purity_scan_false {maxD pL : ℕ} {fl : List Flower} {i : ℕ}
    (h : purity_scan maxD fl pL i = some false) : maxD ≠ pL ∧ 2 ≤ fl.length := by
  rw [purity_scan] at h
  split_ifs at h with h1
  · simp at h
  · push_neg at h1
    refine ⟨h1.2, ?_⟩
    revert h
    split
    · rename_i x y _ e2
      have := (List.getElem?_eq_some_iff.mp e2).1
      intro _
      omega
    · intro h
      simp at h

/-- Helper: the scan reports a leaf exactly when the depth budget is
exhausted or all adjacent classes from `i` on agree. -/
lemma purity_scan_true_iff (maxD pL : ℕ) {fl : List Flower} (i : ℕ) (hi : i < fl.length) :
    purity_scan maxD fl pL i = some true ↔
      (maxD = pL ∨ ∀ j, i ≤ j → j + 1 < fl.length →
        (fl.getD j default).cls = (fl.getD (j + 1) default).cls) := by
  rw [purity_scan]
  split_ifs with h1
  · simp only [eq_self_iff_true, true_iff]
    rcases h1 with h1 | h1
    · right
      intro j hij hj1
      omega
    · exact Or.inl h1
  · push_neg at h1
    have hi1 : i + 1 < fl.length := by omega
    have e1 : fl[i]? = some fl[i] := List.getElem?_eq_getElem hi
    have e2 : fl[i + 1]? = some fl[i + 1] := List.getElem?_eq_getElem hi1
    split
    · rename_i x y e1' e2'
      have hx : x = fl[i] := by
        rw [e1] at e1'
        exact (Option.some_inj.mp e1').symm
      have hy : y = fl[i + 1] := by
        rw [e2] at e2'
        exact (Option.some_inj.mp e2').symm
      have hgx : (fl.getD i default) = x := by
        rw [List.getD_eq_getElem _ _ hi, hx]
      have hgy : (fl.getD (i + 1) default) = y := by
        rw [List.getD_eq_getElem _ _ hi1, hy]
      split_ifs with hne
      · constructor
        · intro h
          simp at h
        · intro h
          rcases h with h | h
          · exact absurd h h1.2
          · exact absurd (hgx ▸ hgy ▸ h i (le_refl i) hi1) hne
      · push_neg at hne
        rw [purity_scan_true_iff maxD pL (i + 1) hi1]
        constructor
        · intro h
          rcases h with h | h
          · exact Or.inl h
          · right
            intro j hij hj1
            rcases Nat.eq_or_lt_of_le hij with rfl | hlt
            · rw [hgx, hgy]
              exact hne
            · exact h j hlt hj1
        · intro h
          rcases h with h | h
          · exact Or.inl h
          · right
            intro j hij hj1
            exact h j (by omega) hj1
    · rename_i hcatch
      exact absurd (hcatch _ _ e1 e2) (fun h => h)
termination_by fl.length - i

/-- Helper: all adjacent classes agree iff all flowers share one class. -/
lemma adjacent_iff_all_same {fl : List Flower} :
    (∀ j, 0 ≤ j → j + 1 < fl.length →
        (fl.getD j default).cls = (fl.getD (j + 1) default).cls) ↔
      ∀ x ∈ fl, ∀ y ∈ fl, x.cls = y.cls := by
  constructor
  · intro h x hx y hy
    have hstep : ∀ j, j < fl.length → (fl.getD j default).cls = (fl.getD 0 default).cls := by
      intro j
      induction j with
      | zero => intro _; rfl
      | succ k ih =>
        intro hk
        rw [← h k (Nat.zero_le k) hk]
        exact ih (by omega)
    obtain ⟨jx, hjx, hjxe⟩ := List.mem_iff_getElem.mp hx
    obtain ⟨jy, hjy, hjye⟩ := List.mem_iff_getElem.mp hy
    have ex : fl.getD jx default = x := by rw [List.getD_eq_getElem _ _ hjx, hjxe]
    have ey : fl.getD jy default = y := by rw [List.getD_eq_getElem _ _ hjy, hjye]
    rw [← ex, ← ey, hstep jx hjx, hstep jy hjy]
  · intro h j _ hj1
    exact h _ (getD_mem (by omega)) _ (getD_mem hj1)

/-- Helper: the if-chain picks a feature whose gain is greatest, and every
feature declared before it has a strictly smaller gain. -/
lemma choose_feature_spec (g1 g2 g3 g4 : ℝ) :
    (∀ f', gain_at g1 g2 g3 g4 f' ≤ gain_at g1 g2 g3 g4 (choose_feature g1 g2 g3 g4)) ∧
    (∀ f', feature_rank f' < feature_rank (choose_feature g1 g2 g3 g4) →
      gain_at g1 g2 g3 g4 f' < gain_at g1 g2 g3 g4 (choose_feature g1 g2 g3 g4)) := by
  unfold choose_feature
  split_ifs with h1 h2 h3
  · obtain ⟨a, b, c⟩ := h1
    refine ⟨?_, ?_⟩
    · intro f'
      cases f' <;> simp only [gain_at] <;> linarith
    · intro f' hf'
      cases f' <;> simp [feature_rank] at hf'
  · simp only [ge_iff_le, not_and_or, not_le] at h1
    obtain ⟨a, b, c⟩ := h2
    refine ⟨?_, ?_⟩
    · intro f'
      cases f' <;> simp only [gain_at] <;> linarith
    · intro f' hf'
      cases f' <;> simp [feature_rank] at hf' <;> simp only [gain_at] <;>
        rcases h1 with h | h | h <;> linarith
  · simp only [ge_iff_le, not_and_or, not_le] at h1 h2
    obtain ⟨a, b, c⟩ := h3
    refine ⟨?_, ?_⟩
    · intro f'
      cases f' <;> simp only [gain_at] <;> linarith
    · intro f' hf'
      cases f' <;> simp [feature_rank] at hf' <;> simp only [gain_at] <;>
        rcases h1 with h | h | h <;> rcases h2 with h' | h' | h' <;> linarith
  · simp only [ge_iff_le, not_and_or, not_le] at h1 h2 h3
    have h4 : g1 ≤ g4 ∧ g2 ≤ g4 ∧ g3 ≤ g4 := by
      rcases h1 with a | a | a <;> rcases h2 with b | b | b <;> rcases h3 with c | c | c <;>
        exact ⟨by linarith, by linarith, by linarith⟩
    obtain ⟨a, b, c⟩ := h4
    refine ⟨?_, ?_⟩
    · intro f'
      cases f' <;> simp only [gain_at] <;> linarith
    · intro f' hf'
      cases f' <;> simp [feature_rank] at hf' <;> simp only [gain_at] <;>
        [rcases h1 with h | h | h; rcases h2 with h | h | h; rcases h3 with h | h | h] <;>
        linarith

/-! Facts about `max_gain`. -/

/-- Helper: sorting preserves the partition size. -/
lemma sort_length (f : Feature) (fl : List Flower) :
    (sort_flowers_by f fl).length = fl.length :=
  (sort_perm f fl).length_eq

/-- Helper: the candidate walk is the identity once `sp` passes the end. -/
lemma max_gain_loop_stop (f : Feature) (s : List Flower) (sp : ℕ) (cur : ℝ) (idx : ℕ)
    (h : ¬ sp < s.length) : max_gain_loop f s sp cur idx = (cur, idx) := by
  rw [max_gain_loop, if_neg h]

/-- Helper: on a partition of fewer than two flowers the walk never runs:
gain 0, index 1. -/
lemma max_gain_small (f : Feature) (fl : List Flower) (h : fl.length ≤ 1) :
    (max_gain f fl).g = 0 ∧ (max_gain f fl).idx = 1 := by
  have hstop := max_gain_loop_stop f (sort_flowers_by f fl) 1 (0 : ℝ) 1
    (by rw [sort_length]; omega)
  constructor <;> simp [max_gain, hstop]

/-- Helper: the walk's maximum is never negative. -/
lemma max_gain_g_nonneg (f : Feature) (fl : List Flower) : 0 ≤ (max_gain f fl).g := by
  by_cases h2 : 2 ≤ fl.length
  · have hs2 : 2 ≤ (sort_flowers_by f fl).length := by rw [sort_length]; exact h2
    have := max_gain_loop_spec f (sort_flowers_by f fl) hs2 1 0 1 (le_refl 1) (le_refl 0)
      (le_refl 1) (by omega) (fun h => absurd h (lt_irrefl 0))
    exact this.1
  · rw [(max_gain_small f fl (by omega)).1]

/-- Helper: the full specification of `max_gain` on partitions of at least
two flowers: index in `[1, n)`, and a positive maximum is the gain of the
split at the index, which is a change point of the sorted partition. -/
lemma max_gain_spec (f : Feature) (fl : List Flower) (h2 : 2 ≤ fl.length) :
    1 ≤ (max_gain f fl).idx ∧
    (max_gain f fl).idx < fl.length ∧
    (0 < (max_gain f fl).g →
      featAt f (max_gain f fl).fls ((max_gain f fl).idx - 1) ≠
        featAt f (max_gain f fl).fls (max_gain f fl).idx ∧
      gain ((max_gain f fl).fls.take (max_gain f fl).idx)
          ((max_gain f fl).fls.drop (max_gain f fl).idx) = (max_gain f fl).g) := by
  have hs2 : 2 ≤ (sort_flowers_by f fl).length := by rw [sort_length]; exact h2
  have h := max_gain_loop_spec f (sort_flowers_by f fl) hs2 1 0 1 (le_refl 1) (le_refl 0)
    (le_refl 1) (by omega) (fun h => absurd h (lt_irrefl 0))
  refine ⟨h.2.1, ?_, ?_⟩
  · rw [← sort_length f fl]
    exact h.2.2.1
  · exact h.2.2.2

/-! Facts about `probe`, `chosen_of` and `commit`. -/

/-- Helper: each list the probing pass threads is a permutation of the
node's partition. -/
lemma probe_fls_perm (fl : List Flower) :
    (probe fl).1.fls.Perm fl ∧ (probe fl).2.1.fls.Perm fl ∧
    (probe fl).2.2.1.fls.Perm fl ∧ (probe fl).2.2.2.fls.Perm fl := by
  have p1 : (max_gain .SL fl).fls.Perm fl := sort_perm _ _
  have p2 : (max_gain .SW (max_gain .SL fl).fls).fls.Perm fl :=
    (sort_perm _ _).trans p1
  have p3 : (max_gain .PL (max_gain .SW (max_gain .SL fl).fls).fls).fls.Perm fl :=
    (sort_perm _ _).trans p2
  have p4 : (max_gain .PW (max_gain .PL (max_gain .SW
      (max_gain .SL fl).fls).fls).fls).fls.Perm fl :=
    (sort_perm _ _).trans p3
  exact ⟨p1, p2, p3, p4⟩

/-- Helper: the four probed gains equal the gains `max_gain` would compute
directly on the node's partition (the threaded re-sorting is invisible). -/
lemma probe_g_eq (fl : List Flower) :
    (probe fl).1.g = (max_gain .SL fl).g ∧
    (probe fl).2.1.g = (max_gain .SW fl).g ∧
    (probe fl).2.2.1.g = (max_gain .PL fl).g ∧
    (probe fl).2.2.2.g = (max_gain .PW fl).g := by
  obtain ⟨p1, p2, p3, -⟩ := probe_fls_perm fl
  exact ⟨rfl, (max_gain_congr p1).1, (max_gain_congr p2).1, (max_gain_congr p3).1⟩

/-- Helper: everything `build_tree` commits to when some probed gain is
nonzero: positive recomputed gain, split index in `[1, n)`, sorted
partition permuting the node's own, strictly increasing feature values at
the split index, the midpoint threshold, and the committed split's gain. -/
lemma commit_spec (fl : List Flower) (h2 : 2 ≤ fl.length)
    (hnz : ¬((probe fl).1.g = 0 ∧ (probe fl).2.1.g = 0 ∧ (probe fl).2.2.1.g = 0 ∧
      (probe fl).2.2.2.g = 0)) :
    0 < (commit fl).g ∧
    1 ≤ (commit fl).idx ∧
    (commit fl).idx < fl.length ∧
    (commit fl).fls.Perm fl ∧
    List.Sorted (feature_le (chosen_of fl)) (commit fl).fls ∧
    featAt (chosen_of fl) (commit fl).fls ((commit fl).idx - 1) <
      featAt (chosen_of fl) (commit fl).fls (commit fl).idx ∧
    (commit fl).thr =
      (featAt (chosen_of fl) (commit fl).fls ((commit fl).idx - 1) +
        featAt (chosen_of fl) (commit fl).fls (commit fl).idx) / 2 ∧
    gain ((commit fl).fls.take (commit fl).idx)
      ((commit fl).fls.drop (commit fl).idx) = (commit fl).g := by
  obtain ⟨p1, p2, p3, p4⟩ := probe_fls_perm fl
  obtain ⟨e1, e2, e3, e4⟩ := probe_g_eq fl
  -- the chosen feature's probed gain is positive
  have hmax := (choose_feature_spec (probe fl).1.g (probe fl).2.1.g
    (probe fl).2.2.1.g (probe fl).2.2.2.g).1
  have hng' : gain_at (probe fl).1.g (probe fl).2.1.g (probe fl).2.2.1.g
      (probe fl).2.2.2.g (choose_feature (probe fl).1.g (probe fl).2.1.g
        (probe fl).2.2.1.g (probe fl).2.2.2.g) =
      gain_at (probe fl).1.g (probe fl).2.1.g (probe fl).2.2.1.g
        (probe fl).2.2.2.g (chosen_of fl) := rfl
  have hpos : 0 < gain_at (probe fl).1.g (probe fl).2.1.g (probe fl).2.2.1.g
      (probe fl).2.2.2.g (chosen_of fl) := by
    by_contra hng
    push_neg at hng
    rw [← hng'] at hng
    apply hnz
    have n1 := max_gain_g_nonneg .SL fl
    have n2 := max_gain_g_nonneg .SW fl
    have n3 := max_gain_g_nonneg .PL fl
    have n4 := max_gain_g_nonneg .PW fl
    rw [← e1] at n1
    rw [← e2] at n2
    rw [← e3] at n3
    rw [← e4] at n4
    have q1 : (probe fl).1.g ≤ 0 := le_trans (by simpa [gain_at] using hmax .SL) hng
    have q2 : (probe fl).2.1.g ≤ 0 := le_trans (by simpa [gain_at] using hmax .SW) hng
    have q3 : (probe fl).2.2.1.g ≤ 0 := le_trans (by simpa [gain_at] using hmax .PL) hng
    have q4 : (probe fl).2.2.2.g ≤ 0 := le_trans (by simpa [gain_at] using hmax .PW) hng
    exact ⟨le_antisymm q1 n1, le_antisymm q2 n2, le_antisymm q3 n3, le_antisymm q4 n4⟩
  -- the committed gain equals the chosen feature's probed gain
  have hge : (commit fl).g = gain_at (probe fl).1.g (probe fl).2.1.g (probe fl).2.2.1.g
      (probe fl).2.2.2.g (chosen_of fl) := by
    rw [commit, (max_gain_congr (f := chosen_of fl) p4).1]
    cases hc : chosen_of fl <;> simp only [gain_at, e1, e2, e3, e4]
  have hgpos : 0 < (commit fl).g := by rw [hge]; exact hpos
  have hlen4 : 2 ≤ (probe fl).2.2.2.fls.length := by rw [p4.length_eq]; exact h2
  have hspec := max_gain_spec (chosen_of fl) (probe fl).2.2.2.fls hlen4
  have hcp := hspec.2.2 hgpos
  have hsorted : List.Sorted (feature_le (chosen_of fl)) (commit fl).fls :=
    sort_sorted _ _
  have hflsp : (commit fl).fls.Perm fl := (sort_perm _ _).trans p4
  have hidx1 : 1 ≤ (commit fl).idx := hspec.1
  have hidxn : (commit fl).idx < fl.length := by
    have := hspec.2.1
    rw [p4.length_eq] at this
    exact this
  have hchlt : featAt (chosen_of fl) (commit fl).fls ((commit fl).idx - 1) <
      featAt (chosen_of fl) (commit fl).fls (commit fl).idx := by
    have hle := featAt_mono hsorted (Nat.sub_le _ 1)
      (show (commit fl).idx < (commit fl).fls.length by
        rw [hflsp.length_eq]
        exact hidxn)
    rcases lt_or_eq_of_le hle with h | h
    · exact h
    · exact absurd h hcp.1
  refine ⟨hgpos, hidx1, hidxn, hflsp, hsorted, hchlt, rfl, hcp.2⟩

/-- Helper: at a strict change point of a sorted partition, every flower of
the prefix is strictly below the midpoint threshold, and every flower of
the suffix is at or above it. -/
lemma split_sides (f : Feature) {s : List Flower} (hs : List.Sorted (feature_le f) s)
    {j : ℕ} (hj1 : 1 ≤ j) (hjn : j < s.length)
    (hlt : featAt f s (j - 1) < featAt f s j) :
    (∀ x ∈ s.take j, x.feature f < (featAt f s (j - 1) + featAt f s j) / 2) ∧
    (∀ x ∈ s.drop j, (featAt f s (j - 1) + featAt f s j) / 2 ≤ x.feature f) := by
  constructor
  · intro x hx
    obtain ⟨k, hk, hxk⟩ := List.mem_iff_getElem.mp hx
    have hkj : k < j := by
      have := hk
      simp only [List.length_take] at this
      omega
    have hklen : k < s.length := lt_trans hkj hjn
    have hget : (s.take j)[k] = s[k] := List.getElem_take _
    have hxf : x.feature f = featAt f s k := by
      rw [featAt, List.getD_eq_getElem _ _ hklen, ← hget, hxk]
    have hle : featAt f s k ≤ featAt f s (j - 1) := featAt_mono hs (by omega) (by omega)
    rw [hxf]
    have : featAt f s (j - 1) < (featAt f s (j - 1) + featAt f s j) / 2 := by linarith
    linarith
  · intro x hx
    obtain ⟨k, hk, hxk⟩ := List.mem_iff_getElem.mp hx
    have hklen : j + k < s.length := by
      have := hk
      simp only [List.length_drop] at this
      omega
    have hget : (s.drop j)[k] = s[j + k] := List.getElem_drop _
    have hxf : x.feature f = featAt f s (j + k) := by
      rw [featAt, List.getD_eq_getElem _ _ hklen, ← hget, hxk]
    have hle : featAt f s j ≤ featAt f s (j + k) :=
      featAt_mono hs (Nat.le_add_right j k) hklen
    rw [hxf]
    have : (featAt f s (j - 1) + featAt f s j) / 2 < featAt f s j := by linarith
    linarith

/-- Helper: the committed left slice is nonempty and shorter than the
node's partition; same for the right slice. -/
lemma commit_children_sizes (fl : List Flower) (h2 : 2 ≤ fl.length)
    (hnz : ¬((probe fl).1.g = 0 ∧ (probe fl).2.1.g = 0 ∧ (probe fl).2.2.1.g = 0 ∧
      (probe fl).2.2.2.g = 0)) :
    ((commit fl).fls.take (commit fl).idx).length = (commit fl).idx ∧
    ((commit fl).fls.drop (commit fl).idx).length = fl.length - (commit fl).idx ∧
    (commit fl).fls.take (commit fl).idx ≠ [] ∧
    (commit fl).fls.drop (commit fl).idx ≠ [] ∧
    ((commit fl).fls.take (commit fl).idx).length < fl.length ∧
    ((commit fl).fls.drop (commit fl).idx).length < fl.length := by
  obtain ⟨-, hidx1, hidxn, hperm, -⟩ := commit_spec fl h2 hnz
  have hlen : (commit fl).fls.length = fl.length := hperm.length_eq
  have ht : ((commit fl).fls.take (commit fl).idx).length = (commit fl).idx := by
    rw [List.length_take, hlen]
    omega
  have hd : ((commit fl).fls.drop (commit fl).idx).length = fl.length - (commit fl).idx := by
    rw [List.length_drop, hlen]
  refine ⟨ht, hd, ?_, ?_, ?_, ?_⟩
  · rw [← List.length_pos, ht]
    omega
  · rw [← List.length_pos, hd]
    omega
  · rw [ht]
    omega
  · rw [hd]
    omega

/-- Helper: `build_tree` returns `some` on nonempty partitions when the
fuel is at least the partition size (each committed split strictly
shrinks both sides). -/
lemma build_tree_isSome (maxD : ℕ) (drw : String → ℕ × ℕ) :
    ∀ (fuel : ℕ) (fl : List Flower) (pos : String), fl ≠ [] → fl.length ≤ fuel →
      (build_tree maxD drw fuel fl pos).isSome := by
  intro fuel
  induction fuel with
  | zero =>
    intro fl pos hne hlen
    have : 0 < fl.length := List.length_pos.mpr hne
    omega
  | succ fuel ih =>
    intro fl pos hne hlen
    rw [build_tree]
    have h0 : 0 < fl.length := List.length_pos.mpr hne
    cases hscan : purity_scan maxD fl pos.length 0 with
    | none =>
      have := purity_scan_isSome maxD pos.length 0 h0
      rw [hscan] at this
      exact absurd this (by simp)
    | some b =>
      cases b with
      | true => rfl
      | false =>
        simp only
        split_ifs with hz
        · rfl
        · have h2 : 2 ≤ fl.length := (purity_scan_false hscan).2
          obtain ⟨ht, hd, htne, hdne, htlt, hdlt⟩ := commit_children_sizes fl h2 hz
          have hbl := ih ((commit fl).fls.take (commit fl).idx) (pos ++ "L") htne (by omega)
          have hbr := ih ((commit fl).fls.drop (commit fl).idx) (pos ++ "R") hdne (by omega)
          obtain ⟨lt, hlt⟩ := Option.isSome_iff_exists.mp hbl
          obtain ⟨rt, hrt⟩ := Option.isSome_iff_exists.mp hbr
          rw [hlt, hrt]
          rfl

/-- Helper: the master invariant of every finished tree: its flowers
permute the partition it was built from, its position is the one it was
built at, the split invariant holds everywhere, and (when the root's
position respects the budget) so does the depth invariant. -/
lemma build_tree_inv (maxD : ℕ) (drw : String → ℕ × ℕ) :
    ∀ (fuel : ℕ) (fl : List Flower) (pos : String) (t : NodeT), fl ≠ [] →
      build_tree maxD drw fuel fl pos = some t →
      (flowersOf t).Perm fl ∧ positionOf t = pos ∧ SplitInv t ∧
      (pos.length ≤ maxD → DepthInv maxD t) := by
  intro fuel
  induction fuel with
  | zero =>
    intro fl pos t hne hb
    rw [build_tree] at hb
    exact absurd hb (by simp)
  | succ fuel ih =>
    intro fl pos t hne hb
    rw [build_tree] at hb
    have h0 : 0 < fl.length := List.length_pos.mpr hne
    cases hscan : purity_scan maxD fl pos.length 0 with
    | none =>
      have := purity_scan_isSome maxD pos.length 0 h0
      rw [hscan] at this
      exact absurd this (by simp)
    | some b =>
      rw [hscan] at hb
      cases b with
      | true =>
        simp only at hb
        have ht : t = make_leaf drw fl pos := (Option.some_inj.mp hb).symm
        subst ht
        refine ⟨List.Perm.refl fl, rfl, trivial, fun hd => hd⟩
      | false =>
        simp only at hb
        split_ifs at hb with hz
        · have ht : t = make_leaf drw (probe fl).2.2.2.fls pos := (Option.some_inj.mp hb).symm
          subst ht
          exact ⟨(probe_fls_perm fl).2.2.2, rfl, trivial, fun hd => hd⟩
        · have h2 : 2 ≤ fl.length := (purity_scan_false hscan).2
          have hdne : maxD ≠ pos.length := (purity_scan_false hscan).1
          obtain ⟨hgpos, hidx1, hidxn, hperm, hsorted, hchlt, hthr, hgain⟩ :=
            commit_spec fl h2 hz
          obtain ⟨htl, htd, htne, hdne', -, -⟩ := commit_children_sizes fl h2 hz
          cases hbl : build_tree maxD drw fuel ((commit fl).fls.take (commit fl).idx)
              (pos ++ "L") with
          | none =>
            rw [hbl] at hb
            cases hbr : build_tree maxD drw fuel ((commit fl).fls.drop (commit fl).idx)
                (pos ++ "R") with
            | none => rw [hbr] at hb; simp at hb
            | some rt => rw [hbr] at hb; simp at hb
          | some lt =>
            rw [hbl] at hb
            cases hbr : build_tree maxD drw fuel ((commit fl).fls.drop (commit fl).idx)
                (pos ++ "R") with
            | none => rw [hbr] at hb; simp at hb
            | some rt =>
              rw [hbr] at hb
              simp only at hb
              have ht : t = .node (chosen_of fl) (commit fl).thr (commit fl).fls pos lt rt :=
                (Option.some_inj.mp hb).symm
              subst ht
              obtain ⟨hlp, hlpos, hlsi, hld⟩ := ih _ _ lt htne hbl
              obtain ⟨hrp, hrpos, hrsi, hrd⟩ := ih _ _ rt hdne' hbr
              have hsides := split_sides (chosen_of fl) hsorted hidx1
                (by rw [hperm.length_eq]; exact hidxn) hchlt
              have hlmem : ∀ x ∈ flowersOf lt, x.feature (chosen_of fl) < (commit fl).thr := by
                intro x hx
                rw [hthr]
                exact hsides.1 x (hlp.mem_iff.mp hx)
              have hrmem : ∀ x ∈ flowersOf rt, (commit fl).thr ≤ x.feature (chosen_of fl) := by
                intro x hx
                rw [hthr]
                exact hsides.2 x (hrp.mem_iff.mp hx)
              have hunion : (flowersOf lt ++ flowersOf rt).Perm (commit fl).fls := by
                have hu := hlp.append hrp
                rw [List.take_append_drop] at hu
                exact hu
              refine ⟨hperm, rfl, ?_, ?_⟩
              · exact ⟨hunion, hlmem, hrmem,
                  ⟨(commit fl).idx, hidx1, (by rw [hperm.length_eq]; exact hidxn),
                    hthr, hlp, hrp, (by rw [hgain]; exact hgpos)⟩, hlpos, hrpos, hlsi, hrsi⟩
              · intro hdep
                have hlt' : pos.length < maxD := by omega
                have heL : (pos ++ "L").length = pos.length + 1 := by
                  rw [String.length_append]
                  rfl
                have heR : (pos ++ "R").length = pos.length + 1 := by
                  rw [String.length_append]
                  rfl
                have hchildL : (pos ++ "L").length ≤ maxD := by omega
                have hchildR : (pos ++ "R").length ≤ maxD := by omega
                exact ⟨hld hchildL, hrd hchildR⟩

/-! Concrete values for evaluating the embedding on small inputs. -/

/-- A class-0 flower with every feature 1. -/
def xF : Flower := ⟨1, 1, 1, 1, 0⟩

/-- A class-1 flower with every feature 2. -/
def yF : Flower := ⟨2, 2, 2, 2, 1⟩

/-- A two-flower partition that any feature splits perfectly. -/
def flTwo : List Flower := [xF, yF]

/-- A draw oracle always answering 0. -/
def drw0 : String → ℕ × ℕ := fun _ => (0, 0)

/-- Four flowers with distinct values 1, 2, 3, 4 of the first feature and
classes 0, 0, 1, 1: the perfect candidate sits between the second and
third. -/
def b1 : Flower := ⟨1, 0, 0, 0, 0⟩

/-- Second flower of the four-flower example. -/
def b2 : Flower := ⟨2, 0, 0, 0, 0⟩

/-- Third flower of the four-flower example. -/
def b3 : Flower := ⟨3, 0, 0, 0, 1⟩

/-- Fourth flower of the four-flower example. -/
def b4 : Flower := ⟨4, 0, 0, 0, 1⟩

/-- The four-flower partition of the C1 analysis. -/
def flFour : List Flower := [b1, b2, b3, b4]

/-- First flower of the six-flower leaf-despite-gain example: SL 1,
class 0, the other features constant. -/
def u1 : Flower := ⟨1, 0, 0, 0, 0⟩

/-- Second flower of the six-flower example: SL 1, class 1. -/
def u2 : Flower := ⟨1, 0, 0, 0, 1⟩

/-- Third flower of the six-flower example: SL 2, class 0. -/
def u3 : Flower := ⟨2, 0, 0, 0, 0⟩

/-- Fourth flower of the six-flower example: SL 4, class 1. -/
def u4 : Flower := ⟨4, 0, 0, 0, 1⟩

/-- Fifth flower of the six-flower example: SL 4, class 1. -/
def u5 : Flower := ⟨4, 0, 0, 0, 1⟩

/-- Sixth flower of the six-flower example: SL 4, class 0. -/
def u6 : Flower := ⟨4, 0, 0, 0, 0⟩

/-- Six flowers, sorted by SL (values 1,1,2,4,4,4, classes 0,1,0,1,1,0, the
other features constant): the scan evaluates only the zero-gain change
point at index 2 and the end of the list, skipping the positive-gain
change point at index 3. -/
def flSix : List Flower := [u1, u2, u3, u4, u5, u6]

/-- First flower of the two-feature six-flower example: SL 1, SW 1,
class 0. -/
def v1 : Flower := ⟨1, 1, 0, 0, 0⟩

/-- Second flower of the two-feature example: SL 1, SW 1, class 1. -/
def v2 : Flower := ⟨1, 1, 0, 0, 1⟩

/-- Third flower of the two-feature example: SL 2, SW 1, class 0. -/
def v3 : Flower := ⟨2, 1, 0, 0, 0⟩

/-- Fourth flower of the two-feature example: SL 4, SW 2, class 1. -/
def v4 : Flower := ⟨4, 2, 0, 0, 1⟩

/-- Fifth flower of the two-feature example: SL 4, SW 2, class 1. -/
def v5 : Flower := ⟨4, 2, 0, 0, 1⟩

/-- Sixth flower of the two-feature example: SL 4, SW 2, class 0. -/
def v6 : Flower := ⟨4, 2, 0, 0, 0⟩

/-- Six flowers whose SL (1,1,2,4,4,4) and SW (1,1,1,2,2,2) both achieve
best gain `5/3 − log2 3` at a change point, classes 0,1,0,1,1,0: the scan
computes 0 for SL (its positive change point at index 3 is skipped) but
the full value for SW (whose only change point comes first), so the build
commits SW although SL ties on achievable best-gain and comes first in
declared order. -/
def flSix6 : List Flower := [v1, v2, v3, v4, v5, v6]

/-- Helper: the linealogarithm vanishes at 0. -/
lemma linlog_zero : linlog 0 = 0 := by simp [linlog]

/-- Helper: the linealogarithm vanishes at 1. -/
lemma linlog_one : linlog 1 = 0 := by simp [linlog, Real.logb_one]

/-- Helper: `linlog (1/2) = -(1/2)`. -/
lemma linlog_half : linlog (1 / 2) = -(1 / 2) := by
  rw [linlog, if_neg (by norm_num), show (1 / 2 : ℝ) = (2 : ℝ)⁻¹ by norm_num,
    Real.logb_inv, Real.logb_self_eq_one (by norm_num)]
  norm_num

/-- Helper: `linlog (1/3)` in terms of `log2 3`. -/
lemma linlog_third : linlog (1 / 3) = -(1 / 3) * Real.logb 2 3 := by
  rw [linlog, if_neg (by norm_num), show (1 / 3 : ℝ) = (3 : ℝ)⁻¹ by norm_num,
    Real.logb_inv]
  ring

/-- Helper: `linlog (2/3)` in terms of `log2 3`. -/
lemma linlog_two_thirds : linlog (2 / 3) = (2 / 3) * (1 - Real.logb 2 3) := by
  rw [linlog, if_neg (by norm_num),
    Real.logb_div (by norm_num) (by norm_num),
    Real.logb_self_eq_one (by norm_num)]

/-- Helper: the entropy of an even two-class split is 1 bit. -/
lemma I_half_half : I (1 / 2) (1 / 2) 0 = 1 := by
  rw [I, linlog_half, linlog_zero]
  norm_num

/-- Helper: a pure side carries no entropy (class 0). -/
lemma I_one_zero_zero : I 1 0 0 = 0 := by
  rw [I, linlog_one, linlog_zero]
  norm_num

/-- Helper: a pure side carries no entropy (class 1). -/
lemma I_zero_one_zero : I 0 1 0 = 0 := by
  rw [I, linlog_one, linlog_zero]
  norm_num

/-- Helper: the entropy of a 1-vs-2 class mix. -/
lemma I_third_mix : I (1 / 3) (2 / 3) 0 = Real.logb 2 3 - 2 / 3 := by
  rw [I, linlog_third, linlog_two_thirds, linlog_zero]
  ring

/-- Helper: the entropy of a 2-vs-1 class mix. -/
lemma I_two_thirds_mix : I (2 / 3) (1 / 3) 0 = Real.logb 2 3 - 2 / 3 := by
  rw [I, linlog_third, linlog_two_thirds, linlog_zero]
  ring

/-- Helper: `log2 3` exceeds 1. -/
lemma one_lt_logb_two_three : 1 < Real.logb 2 3 := by
  rw [← Real.logb_self_eq_one (b := 2) (by norm_num)]
  exact Real.logb_lt_logb (b := 2) (by norm_num) (by norm_num) (by norm_num)

/-- Helper: `log2 3` is below 2. -/
lemma logb_two_three_lt_two : Real.logb 2 3 < 2 := by
  have h4 : Real.logb 2 4 = 2 := by
    rw [show (4 : ℝ) = 2 ^ (2 : ℕ) by norm_num, Real.logb, Real.log_pow]
    have hl : Real.log 2 ≠ 0 := ne_of_gt (Real.log_pos (by norm_num))
    field_simp
  conv_rhs => rw [← h4]
  refine Real.logb_lt_logb (b := 2) (by norm_num) ?_ ?_ <;> norm_num

/-- Helper: `log2 3` is below `5/3` (since `27 < 32`). -/
lemma logb_two_three_lt_five_thirds : Real.logb 2 3 < 5 / 3 := by
  have hl2 : (0 : ℝ) < Real.log 2 := Real.log_pos (by norm_num)
  have h : Real.log 27 < Real.log 32 := Real.log_lt_log (by norm_num) (by norm_num)
  rw [show (27 : ℝ) = 3 ^ (3 : ℕ) by norm_num, show (32 : ℝ) = 2 ^ (5 : ℕ) by norm_num,
    Real.log_pow, Real.log_pow] at h
  rw [Real.logb, div_lt_iff₀ hl2]
  push_cast at h
  linarith

/-- Helper: a one-against-one split of two differently classed flowers
gains one full bit. -/
lemma gain_two_eval : gain [xF] [yF] = 1 := by
  have h1 : count_class ([xF] ++ [yF]) = (1, 1, 0) := by decide
  have h2 : count_class [xF] = (1, 0, 0) := by decide
  have h3 : count_class [yF] = (0, 1, 0) := by decide
  simp only [gain, h1, h2, h3]
  norm_num
  rw [I_half_half, I_one_zero_zero, I_zero_one_zero]
  norm_num

/-- Helper: the four-flower example's candidate at index 1. -/
lemma gain_four_1 : gain [b1] [b2, b3, b4] = 3 / 2 - 3 / 4 * Real.logb 2 3 := by
  have h1 : count_class ([b1] ++ [b2, b3, b4]) = (2, 2, 0) := by decide
  have h2 : count_class [b1] = (1, 0, 0) := by decide
  have h3 : count_class [b2, b3, b4] = (1, 2, 0) := by decide
  simp only [gain, h1, h2, h3]
  norm_num
  rw [I_half_half, I_one_zero_zero, I_third_mix]
  ring

/-- Helper: the four-flower example's candidate at index 3. -/
lemma gain_four_3 : gain [b1, b2, b3] [b4] = 3 / 2 - 3 / 4 * Real.logb 2 3 := by
  have h1 : count_class ([b1, b2, b3] ++ [b4]) = (2, 2, 0) := by decide
  have h2 : count_class [b1, b2, b3] = (2, 1, 0) := by decide
  have h3 : count_class [b4] = (0, 1, 0) := by decide
  simp only [gain, h1, h2, h3]
  norm_num
  rw [I_half_half, I_zero_one_zero, I_two_thirds_mix]
  ring

/-- Helper: the four-flower example's skipped candidate at index 2 gains a
full bit. -/
lemma gain_four_2 : gain [b1, b2] [b3, b4] = 1 := by
  have h1 : count_class ([b1, b2] ++ [b3, b4]) = (2, 2, 0) := by decide
  have h2 : count_class [b1, b2] = (2, 0, 0) := by decide
  have h3 : count_class [b3, b4] = (0, 2, 0) := by decide
  simp only [gain, h1, h2, h3]
  norm_num
  rw [I_half_half, I_one_zero_zero, I_zero_one_zero]
  norm_num

/-- Helper: the six-flower example's evaluated change point at index 2
separates no class proportions: gain exactly 0. -/
lemma gain_six_2 : gain [u1, u2] [u3, u4, u5, u6] = 0 := by
  have h1 : count_class ([u1, u2] ++ [u3, u4, u5, u6]) = (3, 3, 0) := by decide
  have h2 : count_class [u1, u2] = (1, 1, 0) := by decide
  have h3 : count_class [u3, u4, u5, u6] = (2, 2, 0) := by decide
  simp only [gain, h1, h2, h3]
  norm_num
  rw [I_half_half]
  norm_num

/-- Helper: the six-flower example's skipped change point at index 3 gains
`5/3 − log2 3 > 0`. -/
lemma gain_six_3 : gain [u1, u2, u3] [u4, u5, u6] = 5 / 3 - Real.logb 2 3 := by
  have h1 : count_class ([u1, u2, u3] ++ [u4, u5, u6]) = (3, 3, 0) := by decide
  have h2 : count_class [u1, u2, u3] = (2, 1, 0) := by decide
  have h3 : count_class [u4, u5, u6] = (1, 2, 0) := by decide
  simp only [gain, h1, h2, h3]
  norm_num
  rw [I_half_half, I_two_thirds_mix, I_third_mix]
  ring

/-- Helper: the two-feature example's evaluated SL change point at index 2
gains 0. -/
lemma gain_vsix_2 : gain [v1, v2] [v3, v4, v5, v6] = 0 := by
  have h1 : count_class ([v1, v2] ++ [v3, v4, v5, v6]) = (3, 3, 0) := by decide
  have h2 : count_class [v1, v2] = (1, 1, 0) := by decide
  have h3 : count_class [v3, v4, v5, v6] = (2, 2, 0) := by decide
  simp only [gain, h1, h2, h3]
  norm_num
  rw [I_half_half]
  norm_num

/-- Helper: the two-feature example's index-3 split (SL's skipped change
point, and SW's evaluated one) gains `5/3 − log2 3`. -/
lemma gain_vsix_3 : gain [v1, v2, v3] [v4, v5, v6] = 5 / 3 - Real.logb 2 3 := by
  have h1 : count_class ([v1, v2, v3] ++ [v4, v5, v6]) = (3, 3, 0) := by decide
  have h2 : count_class [v1, v2, v3] = (2, 1, 0) := by decide
  have h3 : count_class [v4, v5, v6] = (1, 2, 0) := by decide
  simp only [gain, h1, h2, h3]
  norm_num
  rw [I_half_half, I_two_thirds_mix, I_third_mix]
  ring

/-- Helper: on a feature-constant partition `next_change` runs to the
end. -/
lemma next_change_of_const {f : Feature} {s : List Flower}
    (h : ∀ j, 1 ≤ j → j < s.length → featAt f s (j - 1) = featAt f s j)
    (sp : ℕ) (h1 : 1 ≤ sp) : next_change f s sp = max sp s.length := by
  rw [next_change]
  split_ifs with hlt hne
  · exact absurd (h sp h1 hlt) hne
  · rw [next_change_of_const h (sp + 1) (by omega)]
    omega
  · omega
termination_by s.length - sp

/-- Helper: a feature that is constant over the partition offers no change
point, so its scan reports gain 0. -/
lemma max_gain_g_of_const (f : Feature) (fl : List Flower)
    (h : ∀ x ∈ fl, ∀ y ∈ fl, x.feature f = y.feature f) : (max_gain f fl).g = 0 := by
  by_cases h2 : 2 ≤ fl.length
  · have hlen : (sort_flowers_by f fl).length = fl.length := sort_length f fl
    have hconst : ∀ j, 1 ≤ j → j < (sort_flowers_by f fl).length →
        featAt f (sort_flowers_by f fl) (j - 1) = featAt f (sort_flowers_by f fl) j := by
      intro j hj1 hjn
      have hm1 := getD_mem (s := sort_flowers_by f fl) (j := j - 1) (by omega)
      have hm2 := getD_mem (s := sort_flowers_by f fl) (j := j) hjn
      have hperm := sort_perm f fl
      rw [featAt, featAt]
      exact h _ (hperm.mem_iff.mp hm1) _ (hperm.mem_iff.mp hm2)
    have hnc : next_change f (sort_flowers_by f fl) 1 = (sort_flowers_by f fl).length := by
      rw [next_change_of_const hconst 1 (le_refl 1)]
      omega
    have hloop : max_gain_loop f (sort_flowers_by f fl) 1 0 1 = (0, 1) := by
      rw [max_gain_loop, if_pos (show 1 < (sort_flowers_by f fl).length by omega), hnc,
        List.drop_length, gain_right_nil, if_neg (lt_irrefl (0 : ℝ)),
        max_gain_loop_stop f (sort_flowers_by f fl)
          ((sort_flowers_by f fl).length + 2) 0 1 (by omega)]
    rw [max_gain, hloop]
  · exact (max_gain_small f fl (by omega)).1

/-- Helper: the scan of the six-flower example's first feature: the change
point at index 2 is evaluated (gain 0), index 3 is skipped by the double
increment, the end of the list gains 0 — computed gain 0. -/
lemma max_gain_SL_six : (max_gain .SL flSix).g = 0 := by
  have hs : sort_flowers_by .SL flSix = flSix := by decide
  have hnc1 : next_change .SL flSix 1 = 2 := by
    rw [next_change, if_pos (show 1 < flSix.length by decide), if_neg (by decide),
      next_change, if_pos (show 1 + 1 < flSix.length by decide), if_pos (by decide)]
  have hnc4 : next_change .SL flSix 4 = 6 := by
    rw [next_change, if_pos (show 4 < flSix.length by decide), if_neg (by decide),
      next_change, if_pos (show 4 + 1 < flSix.length by decide), if_neg (by decide),
      next_change, if_neg (by decide)]
  have hloop : max_gain_loop .SL flSix 1 0 1 = (0, 1) := by
    rw [max_gain_loop, if_pos (show 1 < flSix.length by decide), hnc1,
      show flSix.take 2 = [u1, u2] from rfl,
      show flSix.drop 2 = [u3, u4, u5, u6] from rfl,
      gain_six_2, if_neg (lt_irrefl (0 : ℝ)),
      max_gain_loop, if_pos (show 2 + 2 < flSix.length by decide),
      show (2 + 2 : ℕ) = 4 from rfl, hnc4,
      show flSix.take 6 = flSix from rfl, show flSix.drop 6 = ([] : List Flower) from rfl,
      gain_right_nil, if_neg (lt_irrefl (0 : ℝ)),
      max_gain_loop_stop .SL flSix (6 + 2) 0 1 (by decide)]
  rw [max_gain, hs, hloop]

/-- Helper: the same scan on the two-feature example's first feature:
computed gain 0, its positive change point at index 3 skipped. -/
lemma max_gain_SL_vsix : (max_gain .SL flSix6).g = 0 := by
  have hs : sort_flowers_by .SL flSix6 = flSix6 := by decide
  have hnc1 : next_change .SL flSix6 1 = 2 := by
    rw [next_change, if_pos (show 1 < flSix6.length by decide), if_neg (by decide),
      next_change, if_pos (show 1 + 1 < flSix6.length by decide), if_pos (by decide)]
  have hnc4 : next_change .SL flSix6 4 = 6 := by
    rw [next_change, if_pos (show 4 < flSix6.length by decide), if_neg (by decide),
      next_change, if_pos (show 4 + 1 < flSix6.length by decide), if_neg (by decide),
      next_change, if_neg (by decide)]
  have hloop : max_gain_loop .SL flSix6 1 0 1 = (0, 1) := by
    rw [max_gain_loop, if_pos (show 1 < flSix6.length by decide), hnc1,
      show flSix6.take 2 = [v1, v2] from rfl,
      show flSix6.drop 2 = [v3, v4, v5, v6] from rfl,
      gain_vsix_2, if_neg (lt_irrefl (0 : ℝ)),
      max_gain_loop, if_pos (show 2 + 2 < flSix6.length by decide),
      show (2 + 2 : ℕ) = 4 from rfl, hnc4,
      show flSix6.take 6 = flSix6 from rfl,
      show flSix6.drop 6 = ([] : List Flower) from rfl,
      gain_right_nil, if_neg (lt_irrefl (0 : ℝ)),
      max_gain_loop_stop .SL flSix6 (6 + 2) 0 1 (by decide)]
  rw [max_gain, hs, hloop]

/-- Helper: the scan of the two-feature example's second feature: its only
change point, at index 3, comes first and is evaluated — computed gain is
the full `5/3 − log2 3`. -/
lemma max_gain_SW_vsix : (max_gain .SW flSix6).g = 5 / 3 - Real.logb 2 3 := by
  have hL := logb_two_three_lt_five_thirds
  have hs : sort_flowers_by .SW flSix6 = flSix6 := by decide
  have hnc1 : next_change .SW flSix6 1 = 3 := by
    rw [next_change, if_pos (show 1 < flSix6.length by decide), if_neg (by decide),
      next_change, if_pos (show 1 + 1 < flSix6.length by decide), if_neg (by decide),
      next_change, if_pos (show 1 + 1 + 1 < flSix6.length by decide), if_pos (by decide)]
  have hnc5 : next_change .SW flSix6 5 = 6 := by
    rw [next_change, if_pos (show 5 < flSix6.length by decide), if_neg (by decide),
      next_change, if_neg (by decide)]
  have hloop : max_gain_loop .SW flSix6 1 0 1 = (5 / 3 - Real.logb 2 3, 3) := by
    rw [max_gain_loop, if_pos (show 1 < flSix6.length by decide), hnc1,
      show flSix6.take 3 = [v1, v2, v3] from rfl,
      show flSix6.drop 3 = [v4, v5, v6] from rfl,
      gain_vsix_3, if_pos (show (0 : ℝ) < 5 / 3 - Real.logb 2 3 by linarith),
      max_gain_loop, if_pos (show 3 + 2 < flSix6.length by decide),
      show (3 + 2 : ℕ) = 5 from rfl, hnc5,
      show flSix6.take 6 = flSix6 from rfl,
      show flSix6.drop 6 = ([] : List Flower) from rfl,
      gain_right_nil, if_neg (show ¬ (5 / 3 - Real.logb 2 3 < 0) by linarith),
      max_gain_loop_stop .SW flSix6 (6 + 2) (5 / 3 - Real.logb 2 3) 3 (by decide)]
  rw [max_gain, hs, hloop]

/-- Helper: `max_gain` on the two-flower example: gain 1 bit, split index
1, threshold 3/2, partition order unchanged — on every feature. -/
lemma max_gain_two (f : Feature) : max_gain f flTwo = ⟨1, 1, 3 / 2, flTwo⟩ := by
  have hs : sort_flowers_by f flTwo = flTwo := by cases f <;> decide
  have hnc : next_change f flTwo 1 = 1 := by
    rw [next_change, if_pos (show 1 < flTwo.length by decide)]
    rw [if_pos (show featAt f flTwo (1 - 1) ≠ featAt f flTwo 1 by cases f <;> decide)]
  have htake : flTwo.take 1 = [xF] := rfl
  have hdrop : flTwo.drop 1 = [yF] := rfl
  have hloop : max_gain_loop f flTwo 1 0 1 = (1, 1) := by
    rw [max_gain_loop, if_pos (show 1 < flTwo.length by decide), hnc, htake, hdrop,
      gain_two_eval, if_pos (show (0 : ℝ) < 1 by norm_num),
      max_gain_loop_stop f flTwo 3 1 1 (by decide)]
  rw [max_gain, hs, hloop]
  have hf0 : featAt f flTwo ((1, 1).2 - 1) = 1 := by cases f <;> decide
  have hf1 : featAt f flTwo (1, 1).2 = 2 := by cases f <;> decide
  rw [hf0, hf1]
  norm_num

/-- Helper: the probing pass on the two-flower example. -/
lemma probe_two : probe flTwo =
    (⟨1, 1, 3 / 2, flTwo⟩, ⟨1, 1, 3 / 2, flTwo⟩, ⟨1, 1, 3 / 2, flTwo⟩,
      ⟨1, 1, 3 / 2, flTwo⟩) := by
  rw [probe, max_gain_two .SL]
  rw [show (⟨1, 1, 3 / 2, flTwo⟩ : MGResult).fls = flTwo from rfl, max_gain_two .SW,
    show (⟨1, 1, 3 / 2, flTwo⟩ : MGResult).fls = flTwo from rfl, max_gain_two .PL,
    show (⟨1, 1, 3 / 2, flTwo⟩ : MGResult).fls = flTwo from rfl, max_gain_two .PW]

/-- Helper: the two-flower example chooses the first feature. -/
lemma chosen_two : chosen_of flTwo = .SL := by
  rw [chosen_of, probe_two]
  simp only
  rw [choose_feature, if_pos (by norm_num)]

/-- Helper: the committed split of the two-flower example. -/
lemma commit_two : commit flTwo = ⟨1, 1, 3 / 2, flTwo⟩ := by
  rw [commit, chosen_two, probe_two]
  simp only
  exact max_gain_two .SL

/-- Helper: building a single class-0 flower at position "L" yields the
leaf labelled 0 (with the draw oracle answering 0). -/
lemma build_one_x : build_tree 7 drw0 1 [xF] "L" = some (.leaf 0 [xF] "L") := by
  rw [build_tree]
  rw [show purity_scan 7 [xF] ("L" : String).length 0 = some true by
    rw [purity_scan, if_pos (by decide)]]
  rfl

/-- Helper: building a single class-1 flower at position "R" yields the
leaf labelled 1 (with the draw oracle answering 0). -/
lemma build_one_y : build_tree 7 drw0 1 [yF] "R" = some (.leaf 1 [yF] "R") := by
  rw [build_tree]
  rw [show purity_scan 7 [yF] ("R" : String).length 0 = some true by
    rw [purity_scan, if_pos (by decide)]]
  rfl

/-- Helper: the full build of the two-flower example: a root split on SL
at threshold 3/2 with two pure leaves. -/
lemma build_two : build_tree 7 drw0 2 flTwo "" =
    some (.node .SL (3 / 2) flTwo "" (.leaf 0 [xF] "L") (.leaf 1 [yF] "R")) := by
  rw [build_tree]
  rw [show purity_scan 7 flTwo ("" : String).length 0 = some false by
    rw [purity_scan, if_neg (by decide)]
    rfl]
  simp only
  rw [probe_two]
  simp only
  rw [if_neg (by norm_num), commit_two, chosen_two]
  simp only
  rw [show flTwo.take 1 = [xF] from rfl, show flTwo.drop 1 = [yF] from rfl,
    show ("" : String) ++ "L" = "L" from rfl, show ("" : String) ++ "R" = "R" from rfl,
    build_one_x, build_one_y]

/-- Helper: the candidate walk on the four-flower example: the loop
evaluates the change points at indices 1 and 3 only (after each evaluated
candidate the loop variable advances by two), both gaining
`3/2 - (3/4)·log2 3`, and returns that value with index 1 — never
evaluating the change point at index 2. -/
lemma max_gain_loop_four : max_gain_loop .SL flFour 1 0 1 =
    (3 / 2 - 3 / 4 * Real.logb 2 3, 1) := by
  have hL2 := logb_two_three_lt_two
  have hnc1 : next_change .SL flFour 1 = 1 := by
    rw [next_change, if_pos (show 1 < flFour.length by decide), if_pos (by decide)]
  have hnc3 : next_change .SL flFour 3 = 3 := by
    rw [next_change, if_pos (show 3 < flFour.length by decide), if_pos (by decide)]
  rw [max_gain_loop, if_pos (show 1 < flFour.length by decide), hnc1,
    show flFour.take 1 = [b1] from rfl, show flFour.drop 1 = [b2, b3, b4] from rfl,
    gain_four_1, if_pos (show (0 : ℝ) < 3 / 2 - 3 / 4 * Real.logb 2 3 by linarith)]
  rw [max_gain_loop, if_pos (show 3 < flFour.length by decide), hnc3,
    show flFour.take 3 = [b1, b2, b3] from rfl, show flFour.drop 3 = [b4] from rfl,
    gain_four_3, if_neg (lt_irrefl _),
    max_gain_loop_stop .SL flFour 5 (3 / 2 - 3 / 4 * Real.logb 2 3) 1 (by decide)]

/-- Helper: the gain `max_gain` reports for the first feature on the
four-flower example. -/
lemma max_gain_four_g : (max_gain .SL flFour).g = 3 / 2 - 3 / 4 * Real.logb 2 3 := by
  have hs : sort_flowers_by .SL flFour = flFour := by decide
  rw [max_gain, hs, max_gain_loop_four]

/-- Helper: the split invariant descends to every subtree. -/
lemma splitInv_subtree {t t' : NodeT} (hs : Subtree t' t) (h : SplitInv t) : SplitInv t' := by
  induction hs with
  | refl => exact h
  | left hsub ih => exact ih h.2.2.2.2.2.2.1
  | right hsub ih => exact ih h.2.2.2.2.2.2.2

/-- Helper: the depth invariant descends to every subtree. -/
lemma depthInv_subtree {maxD : ℕ} {t t' : NodeT} (hs : Subtree t' t)
    (h : DepthInv maxD t) : DepthInv maxD t' := by
  induction hs with
  | refl => exact h
  | left hsub ih => exact ih h.1
  | right hsub ih => exact ih h.2

/-- Helper: when `build_tree` returns an internal node, it committed the
chosen feature's recomputed split, the purity loop had found a class
change, and not all four probed gains were zero. -/
lemma build_node_eq {maxD : ℕ} {drw : String → ℕ × ℕ} {fuel : ℕ} {fl : List Flower}
    {pos : String} {f : Feature} {thr : ℚ} {flw : List Flower} {pos' : String}
    {l r : NodeT}
    (hb : build_tree maxD drw fuel fl pos = some (.node f thr flw pos' l r)) :
    f = chosen_of fl ∧ thr = (commit fl).thr ∧ flw = (commit fl).fls ∧ pos' = pos ∧
    ¬((probe fl).1.g = 0 ∧ (probe fl).2.1.g = 0 ∧ (probe fl).2.2.1.g = 0 ∧
      (probe fl).2.2.2.g = 0) ∧
    purity_scan maxD fl pos.length 0 = some false := by
  cases fuel with
  | zero =>
    rw [build_tree] at hb
    exact absurd hb (by simp)
  | succ fuel =>
    rw [build_tree] at hb
    cases hscan : purity_scan maxD fl pos.length 0 with
    | none => rw [hscan] at hb; simp at hb
    | some b =>
      rw [hscan] at hb
      cases b with
      | true =>
        simp only at hb
        rw [make_leaf] at hb
        simp at hb
      | false =>
        simp only at hb
        split_ifs at hb with hz
        · rw [make_leaf] at hb
          simp at hb
        · cases hbl : build_tree maxD drw fuel ((commit fl).fls.take (commit fl).idx)
              (pos ++ "L") with
          | none =>
            rw [hbl] at hb
            cases hbr : build_tree maxD drw fuel ((commit fl).fls.drop (commit fl).idx)
                (pos ++ "R") with
            | none => rw [hbr] at hb; simp at hb
            | some rt => rw [hbr] at hb; simp at hb
          | some lt =>
            rw [hbl] at hb
            cases hbr : build_tree maxD drw fuel ((commit fl).fls.drop (commit fl).idx)
                (pos ++ "R") with
            | none => rw [hbr] at hb; simp at hb
            | some rt =>
              rw [hbr] at hb
              simp only [Option.some_inj] at hb
              obtain ⟨hf, hthr, hflw, hpos, -, -⟩ := NodeT.node.inj hb.symm
              exact ⟨hf, hthr, hflw, hpos, hz, rfl⟩

/-- Helper: `build_tree` makes a leaf exactly on purity, exhausted depth
budget, or four zero probed gains. -/
lemma build_leaf_iff (maxD : ℕ) (drw : String → ℕ × ℕ) (fuel : ℕ) (fl : List Flower)
    (pos : String) (hne : fl ≠ []) (hfuel : fl.length ≤ fuel) :
    (∃ lab flw, build_tree maxD drw fuel fl pos = some (.leaf lab flw pos)) ↔
      ((∀ x ∈ fl, ∀ y ∈ fl, x.cls = y.cls) ∨ maxD = pos.length ∨
        ((probe fl).1.g = 0 ∧ (probe fl).2.1.g = 0 ∧ (probe fl).2.2.1.g = 0 ∧
          (probe fl).2.2.2.g = 0)) := by
  have h0 : 0 < fl.length := List.length_pos.mpr hne
  cases fuel with
  | zero => omega
  | succ fuel =>
    rw [build_tree]
    cases hscan : purity_scan maxD fl pos.length 0 with
    | none =>
      have := purity_scan_isSome maxD pos.length 0 h0
      rw [hscan] at this
      exact absurd this (by simp)
    | some b =>
      cases b with
      | true =>
        have htrue := (purity_scan_true_iff maxD pos.length 0 h0).mp hscan
        simp only [make_leaf, Option.some_inj]
        constructor
        · intro _
          rcases htrue with h | h
          · exact Or.inr (Or.inl h)
          · exact Or.inl (adjacent_iff_all_same.mp (fun j _ hj => h j (Nat.zero_le j) hj))
        · intro _
          exact ⟨_, _, rfl⟩
      | false =>
        have hfalse := purity_scan_false hscan
        have hnotrue : ¬((∀ x ∈ fl, ∀ y ∈ fl, x.cls = y.cls) ∨ maxD = pos.length) := by
          rintro (h | h)
          · have : purity_scan maxD fl pos.length 0 = some true :=
              (purity_scan_true_iff maxD pos.length 0 h0).mpr
                (Or.inr (fun j _ hj => adjacent_iff_all_same.mpr h j (Nat.zero_le j) hj))
            rw [hscan] at this
            simp at this
          · exact hfalse.1 h
        simp only
        split_ifs with hz
        · simp only [make_leaf, Option.some_inj]
          constructor
          · intro _
            exact Or.inr (Or.inr hz)
          · intro _
            exact ⟨_, _, rfl⟩
        · constructor
          · rintro ⟨lab, flw, hleaf⟩
            obtain ⟨ht, hd, htne, hdne', htlt, hdlt⟩ :=
              commit_children_sizes fl hfalse.2 hz
            cases hbl : build_tree maxD drw fuel ((commit fl).fls.take (commit fl).idx)
                (pos ++ "L") with
            | none =>
              have := build_tree_isSome maxD drw fuel _ (pos ++ "L") htne (by omega)
              rw [hbl] at this
              exact absurd this (by simp)
            | some lt =>
              cases hbr : build_tree maxD drw fuel
                  ((commit fl).fls.drop (commit fl).idx) (pos ++ "R") with
              | none =>
                have := build_tree_isSome maxD drw fuel _ (pos ++ "R") hdne' (by omega)
                rw [hbr] at this
                exact absurd this (by simp)
              | some rt =>
                rw [hbl, hbr] at hleaf
                simp at hleaf
          · rintro (h | h | h)
            · exact absurd (Or.inl h) hnotrue
            · exact absurd (Or.inr h) hnotrue
            · exact absurd h hz

/-- C2: For every class-count triple `(a, b, c)`, the leaf label decision
returns: the three-way draw when `a = b = c` (so, with the draw uniform on
`{0, 1, 2}`, a uniformly random class among all three); the two-way draw
mapped onto the two tied classes when exactly two counts are equal and that
pair is the maximum; deterministically the unique largest class when
exactly two counts are equal and that pair is the minimum; and
deterministically the class with the strictly largest count when all three
counts are distinct.  The result is always one of the three valid classes. -/
theorem c2_find_best_policy (r2 r1 a b c : ℕ) (h2 : r2 < 3) (h1 : r1 < 2) :
    find_best r2 r1 a b c < 3 ∧
    (a = b ∧ b = c → find_best r2 r1 a b c = r2) ∧
    (a = b ∧ c < b → find_best r2 r1 a b c = r1) ∧
    (b = c ∧ a < c → find_best r2 r1 a b c = 1 + r1) ∧
    (c = a ∧ b < a → find_best r2 r1 a b c = 2 * r1) ∧
    (a = b ∧ b < c → find_best r2 r1 a b c = 2) ∧
    (b = c ∧ c < a → find_best r2 r1 a b c = 0) ∧
    (c = a ∧ a < b → find_best r2 r1 a b c = 1) ∧
    (b < a ∧ c < a → find_best r2 r1 a b c = 0) ∧
    (a < b ∧ c < b → find_best r2 r1 a b c = 1) ∧
    (a < c ∧ b < c → find_best r2 r1 a b c = 2) := by
  unfold find_best
  split_ifs <;> omega

/-- Witness for C2 at counts `(5, 5, 1)` with draws `r2 = 0`, `r1 = 1`:
only the tied classes 0 and 1 can come out, here class `r1 = 1`. -/
theorem c2_find_best_policy_witness :
    (0 < 3 ∧ 1 < 2) ∧ find_best 0 1 5 5 1 = 1 := by
  refine ⟨⟨by decide, by decide⟩, ?_⟩
  have h := c2_find_best_policy 0 1 5 5 1 (by decide) (by decide)
  exact h.2.2.1 ⟨rfl, by decide⟩

/-- C10: when every flower in the partition carries a valid class code
(0, 1 or 2), the three class counters sum exactly to the partition size; in
general they sum to at most the partition size, and a flower with any other
code (here code 3) is counted by none of the three counters, so the counts
undercount the partition. -/
theorem c10_count_class_total (fl : List Flower)
    (hv : ∀ x ∈ fl, x.cls = 0 ∨ x.cls = 1 ∨ x.cls = 2) :
    (count_class fl).1 + (count_class fl).2.1 + (count_class fl).2.2 = fl.length ∧
    (∀ l : List Flower,
      (count_class l).1 + (count_class l).2.1 + (count_class l).2.2 ≤ l.length) ∧
    count_class [⟨0, 0, 0, 0, 3⟩] = (0, 0, 0) := by
  refine ⟨?_, count_class_sum_le, by decide⟩
  induction fl with
  | nil => simp [count_class]
  | cons x xs ih =>
    have hx := hv x (List.mem_cons_self x xs)
    have ihx := ih (fun y hy => hv y (List.mem_cons_of_mem x hy))
    simp only [count_class, List.length_cons]
    rcases hx with h | h | h <;> simp only [h] <;> norm_num <;> omega

/-- Witness for C10 on a concrete all-valid partition of two flowers. -/
theorem c10_count_class_total_witness :
    (∀ x ∈ [(⟨1, 2, 3, 4, 0⟩ : Flower), ⟨5, 6, 7, 8, 2⟩],
        x.cls = 0 ∨ x.cls = 1 ∨ x.cls = 2) ∧
    (count_class [(⟨1, 2, 3, 4, 0⟩ : Flower), ⟨5, 6, 7, 8, 2⟩]).1 +
      (count_class [(⟨1, 2, 3, 4, 0⟩ : Flower), ⟨5, 6, 7, 8, 2⟩]).2.1 +
      (count_class [(⟨1, 2, 3, 4, 0⟩ : Flower), ⟨5, 6, 7, 8, 2⟩]).2.2 =
      ([(⟨1, 2, 3, 4, 0⟩ : Flower), ⟨5, 6, 7, 8, 2⟩] : List Flower).length := by
  refine ⟨by decide, ?_⟩
  exact (c10_count_class_total _ (by decide)).1

/-- C3: For every internal node of a finished tree, every sample in its
left child's partition has the chosen feature's value strictly below the
node's threshold (the midpoint of the two adjacent sorted feature values
at the split index), every sample in its right child's partition has that
feature's value at or above the threshold, and the multiset union of the
two children's partitions equals the node's partition exactly. -/
theorem c3_split_partition (maxD : ℕ) (drw : String → ℕ × ℕ) (fuel : ℕ)
    (fl : List Flower) (pos : String) (t t' : NodeT) (f : Feature) (thr : ℚ)
    (flw : List Flower) (pos' : String) (l r : NodeT)
    (hne : fl ≠ []) (hb : build_tree maxD drw fuel fl pos = some t)
    (hsub : Subtree t' t) (ht' : t' = .node f thr flw pos' l r) :
    (∀ x ∈ flowersOf l, x.feature f < thr) ∧
    (∀ x ∈ flowersOf r, thr ≤ x.feature f) ∧
    (flowersOf l ++ flowersOf r).Perm flw ∧
    (∃ j, 1 ≤ j ∧ j < flw.length ∧
      thr = (featAt f flw (j - 1) + featAt f flw j) / 2) := by
  have hsi := splitInv_subtree hsub (build_tree_inv maxD drw fuel fl pos t hne hb).2.2.1
  subst ht'
  obtain ⟨j, hj1, hjn, hthr, -⟩ := hsi.2.2.2.1
  exact ⟨hsi.2.1, hsi.2.2.1, hsi.1, j, hj1, hjn, hthr⟩

/-- C4: On a nonempty partition with fuel at least the partition size,
`build_tree` terminates with a finished tree; at every committed split the
two children's partitions are nonempty and strictly smaller, each child's
position is one longer (depth strictly increases), and the committed
split's information gain is strictly positive (a zero-gain split is never
committed). -/
theorem c4_termination (maxD : ℕ) (drw : String → ℕ × ℕ) (fuel : ℕ)
    (fl : List Flower) (pos : String) (hne : fl ≠ []) (hfuel : fl.length ≤ fuel) :
    (build_tree maxD drw fuel fl pos).isSome ∧
    (∀ t t' f thr flw pos' l r, build_tree maxD drw fuel fl pos = some t →
      Subtree t' t → t' = .node f thr flw pos' l r →
      flowersOf l ≠ [] ∧ flowersOf r ≠ [] ∧
      (flowersOf l).length < flw.length ∧ (flowersOf r).length < flw.length ∧
      (positionOf l).length = pos'.length + 1 ∧ (positionOf r).length = pos'.length + 1 ∧
      ∃ j, (flowersOf l).Perm (flw.take j) ∧ (flowersOf r).Perm (flw.drop j) ∧
        0 < gain (flw.take j) (flw.drop j)) := by
  refine ⟨build_tree_isSome maxD drw fuel fl pos hne hfuel, ?_⟩
  intro t t' f thr flw pos' l r hb hsub ht'
  have hsi := splitInv_subtree hsub (build_tree_inv maxD drw fuel fl pos t hne hb).2.2.1
  subst ht'
  obtain ⟨j, hj1, hjn, hthr, hlp, hrp, hgpos⟩ := hsi.2.2.2.1
  have hlpos := hsi.2.2.2.2.1
  have hrpos := hsi.2.2.2.2.2.1
  have hll : (flowersOf l).length = j := by
    rw [hlp.length_eq, List.length_take]
    omega
  have hrl : (flowersOf r).length = flw.length - j := by
    rw [hrp.length_eq, List.length_drop]
  refine ⟨?_, ?_, by omega, by omega, ?_, ?_, j, hlp, hrp, hgpos⟩
  · rw [← List.length_pos]
    omega
  · rw [← List.length_pos]
    omega
  · rw [hlpos, String.length_append]
    rfl
  · rw [hrpos, String.length_append]
    rfl

/-- C7: the effective maximum depth is the configured depth plus the
length of the optional root position label (zero for the empty label), and
every leaf of the finished tree sits at depth (position length past the
root label) at most the configured depth. -/
theorem c7_depth_bound (d : ℕ) (rootPos : String) (drw : String → ℕ × ℕ) (fuel : ℕ)
    (fl : List Flower) (t : NodeT) (lab : ℕ) (flw : List Flower) (p : String)
    (hne : fl ≠ [])
    (hb : build_tree (effective_max_depth d rootPos) drw fuel fl rootPos = some t)
    (hsub : Subtree (.leaf lab flw p) t) :
    effective_max_depth d rootPos = d + rootPos.length ∧
    effective_max_depth d "" = d ∧
    p.length - rootPos.length ≤ d := by
  have h := build_tree_inv (effective_max_depth d rootPos) drw fuel fl rootPos t hne hb
  have hd := h.2.2.2 (by rw [effective_max_depth]; omega)
  have hleaf := depthInv_subtree hsub hd
  refine ⟨rfl, by rw [effective_max_depth]; rfl, ?_⟩
  have : p.length ≤ effective_max_depth d rootPos := hleaf
  rw [effective_max_depth] at this
  omega

/-- C8: classification starts at the root, goes left when the sample's
value of the node's feature is strictly below the threshold and right
otherwise, always reaches a leaf of the tree; validation is true exactly
when the reached label equals the sample's class code; and the reported
accuracy numerators count exactly the samples whose classification matches
their class, over the training set and the validation slice alike. -/
theorem c8_classify_validate (t : NodeT) (x : Flower) (all : List Flower) (vb ve : ℕ) :
    (validate_flower t x = true ↔ classify t x = x.cls) ∧
    (∃ lab flw p, Subtree (.leaf lab flw p) t ∧ classify t x = (lab : ℤ)) ∧
    correct_count t (training_set all vb ve) =
      ((training_set all vb ve).filter (fun y => decide (classify t y = y.cls))).length ∧
    correct_count t (validation_set all vb ve) =
      ((validation_set all vb ve).filter (fun y => decide (classify t y = y.cls))).length := by
  have hpt : ∀ (t : NodeT) (y : Flower), validate_flower t y = true ↔ classify t y = y.cls := by
    intro t
    induction t with
    | leaf lab fs p =>
      intro y
      simp only [validate_flower, classify, decide_eq_true_eq]
      exact ⟨fun h => h.symm, fun h => h.symm⟩
    | node f thr fs p l r ihl ihr =>
      intro y
      simp only [validate_flower, classify]
      split_ifs with h
      · exact ihl y
      · exact ihr y
  have hreach : ∀ (t : NodeT) (y : Flower),
      ∃ lab flw p, Subtree (.leaf lab flw p) t ∧ classify t y = (lab : ℤ) := by
    intro t
    induction t with
    | leaf lab fs p =>
      intro y
      exact ⟨lab, fs, p, Subtree.refl _, rfl⟩
    | node f thr fs p l r ihl ihr =>
      intro y
      simp only [classify]
      split_ifs with h
      · obtain ⟨lab, flw, p', hsub, hc⟩ := ihl y
        exact ⟨lab, flw, p', Subtree.left hsub, hc⟩
      · obtain ⟨lab, flw, p', hsub, hc⟩ := ihr y
        exact ⟨lab, flw, p', Subtree.right hsub, hc⟩
  have hcnt : ∀ l : List Flower, correct_count t l =
      (l.filter (fun y => decide (classify t y = y.cls))).length := by
    intro l
    rw [correct_count]
    congr 1
    apply List.filter_congr
    intro y _
    by_cases h : classify t y = y.cls
    · rw [(hpt t y).mpr h]
      simp [h]
    · have hd : decide (classify t y = y.cls) = false := decide_eq_false h
      rw [hd]
      rcases Bool.eq_false_or_eq_true (validate_flower t y) with hv | hv
      · exact absurd ((hpt t y).mp hv) h
      · exact hv
  exact ⟨hpt t x, hreach t x, hcnt _, hcnt _⟩

/-- C9: on a nonempty partition every access of `build` is in bounds: the
purity scan completes, the split search runs only on partitions of at
least two samples and its retained index keeps the threshold's reads at
`index - 1` and `index` in bounds, the gain computation returns 0 before
any division whenever a side counts no flowers and otherwise divides by
strictly positive totals; on the empty partition (with depth budget left)
the purity scan's first read is out of bounds. -/
theorem c9_memory_safety (maxD posLen : ℕ) (fl : List Flower) (hne : fl ≠ []) :
    (purity_scan maxD fl posLen 0).isSome ∧
    (∀ i, purity_scan maxD fl posLen i = some false → maxD ≠ posLen ∧ 2 ≤ fl.length) ∧
    (∀ f : Feature, 2 ≤ fl.length →
      1 ≤ (max_gain f fl).idx ∧ (max_gain f fl).idx < fl.length) ∧
    (∀ l r : List Flower,
      ((count_class l).1 + (count_class l).2.1 + (count_class l).2.2 = 0 ∨
        (count_class r).1 + (count_class r).2.1 + (count_class r).2.2 = 0) →
      gain l r = 0) ∧
    (∀ l r : List Flower,
      ¬((count_class l).1 + (count_class l).2.1 + (count_class l).2.2 = 0 ∨
        (count_class r).1 + (count_class r).2.1 + (count_class r).2.2 = 0) →
      0 < (count_class l).1 + (count_class l).2.1 + (count_class l).2.2 ∧
      0 < (count_class r).1 + (count_class r).2.1 + (count_class r).2.2 ∧
      0 < (count_class (l ++ r)).1 + (count_class (l ++ r)).2.1 +
        (count_class (l ++ r)).2.2) ∧
    (maxD ≠ posLen → purity_scan maxD ([] : List Flower) posLen 0 = none) := by
  refine ⟨purity_scan_isSome maxD posLen 0 (List.length_pos.mpr hne), ?_, ?_, ?_, ?_, ?_⟩
  · intro i h
    exact purity_scan_false h
  · intro f h2
    have h := max_gain_spec f fl h2
    exact ⟨h.1, h.2.1⟩
  · intro l r h
    exact gain_of_total_eq_zero h
  · intro l r h
    push_neg at h
    rw [count_class_append]
    dsimp only
    omega
  · intro h
    rw [purity_scan, if_neg (by simp [h])]
    rfl

/-- C1 (the code evaluated at the failing input): on four flowers with
first-feature values 1, 2, 3, 4 and classes 0, 0, 1, 1, index 2 is a
candidate in the claim's sense — strictly inside the partition, with the
sorted feature value changing between positions 1 and 2 — yet the split
search returns a strictly smaller gain (`3/2 − (3/4)·log2 3 ≈ 0.31`
instead of the full bit at index 2): after each evaluated candidate the
loop variable is incremented twice, so the candidate at index 2 is
skipped, refuting "returns the maximum information gain over all such
candidates". -/
theorem c1_max_gain_skips_candidate :
    2 ≤ flFour.length ∧ 2 < flFour.length ∧
    featAt .SL (sort_flowers_by .SL flFour) 1 ≠ featAt .SL (sort_flowers_by .SL flFour) 2 ∧
    (max_gain .SL flFour).g <
      gain ((sort_flowers_by .SL flFour).take 2) ((sort_flowers_by .SL flFour).drop 2) := by
  have hs : sort_flowers_by .SL flFour = flFour := by decide
  refine ⟨by decide, by decide, ?_, ?_⟩
  · rw [hs]
    decide
  · rw [max_gain_four_g, hs, show flFour.take 2 = [b1, b2] from rfl,
      show flFour.drop 2 = [b3, b4] from rfl, gain_four_2]
    have := one_lt_logb_two_three
    linarith

/-- Witness for C3 on the two-flower build: at the root split on SL with
threshold 3/2, the left leaf's flower sits strictly below, the right
leaf's at or above, and together they permute the root's partition. -/
theorem c3_split_partition_witness :
    (flTwo ≠ []) ∧
    ((∀ x ∈ flowersOf (.leaf 0 [xF] "L"), x.feature .SL < 3 / 2) ∧
      (∀ x ∈ flowersOf (.leaf 1 [yF] "R"), 3 / 2 ≤ x.feature .SL) ∧
      (flowersOf (.leaf 0 [xF] "L") ++ flowersOf (.leaf 1 [yF] "R")).Perm flTwo ∧
      (∃ j, 1 ≤ j ∧ j < flTwo.length ∧
        (3 / 2 : ℚ) = (featAt .SL flTwo (j - 1) + featAt .SL flTwo j) / 2)) :=
  ⟨by decide, c3_split_partition 7 drw0 2 flTwo "" _ _ .SL (3 / 2) flTwo "" _ _
    (by decide) build_two (Subtree.refl _) rfl⟩

/-- Witness for C4 on the two-flower build: the build returns a finished
tree. -/
theorem c4_termination_witness :
    (flTwo ≠ [] ∧ flTwo.length ≤ 2) ∧ (build_tree 7 drw0 2 flTwo "").isSome :=
  ⟨⟨by decide, by decide⟩, (c4_termination 7 drw0 2 flTwo "" (by decide) (by decide)).1⟩

/-- Witness for C7 on the two-flower build with configured depth 7 and
empty root label: the left leaf's depth is within the bound. -/
theorem c7_depth_bound_witness :
    (flTwo ≠ []) ∧
    (effective_max_depth 7 "" = 7 + ("" : String).length ∧ effective_max_depth 7 "" = 7 ∧
      ("L" : String).length - ("" : String).length ≤ 7) :=
  ⟨by decide, c7_depth_bound 7 "" drw0 2 flTwo _ 0 [xF] "L" (by decide) build_two
    (Subtree.left (Subtree.refl _))⟩

/-- Witness for C9 on a singleton partition: the purity loop completes. -/
theorem c9_memory_safety_witness :
    ([xF] ≠ ([] : List Flower)) ∧ (purity_scan 5 [xF] 0 0).isSome :=
  ⟨by decide, (c9_memory_safety 5 0 [xF] (by decide)).1⟩

/-- Helper: the two-feature example's build selects SW: the probed gains
are `(0, 5/3 − log2 3, 0, 0)` and the if-chain falls through SL. -/
lemma chosen_vsix : chosen_of flSix6 = .SW := by
  obtain ⟨e1, e2, e3, e4⟩ := probe_g_eq flSix6
  have hL := logb_two_three_lt_five_thirds
  rw [chosen_of, e1, e2, e3, e4, max_gain_SL_vsix, max_gain_SW_vsix,
    max_gain_g_of_const .PL flSix6 (by decide), max_gain_g_of_const .PW flSix6 (by decide)]
  rw [choose_feature, if_neg (by intro hcon; have := hcon.1; linarith),
    if_pos (by refine ⟨by linarith, by linarith, by linarith⟩)]

/-- C5 (the code evaluated at the failing input): on the six flowers with
first-feature values 1,1,2,4,4,4 and classes 0,1,0,1,1,0 (the other three
features constant), `build_tree` turns the node into a leaf although the
node is impure, the depth budget is not exhausted, and the change point at
index 3 of the sorted partition achieves gain `5/3 − log2 3 > 0`: the scan
evaluates only the zero-gain change point at index 2 and, skipping index 3
by the double increment, the end of the list, so every feature's computed
gain collapses to 0 and the claim's leaf condition ("best achievable gain
of every feature is exactly zero") is violated. -/
theorem c5_leafs_despite_achievable_gain :
    (∃ lab flw, build_tree 7 drw0 6 flSix "" = some (.leaf lab flw "")) ∧
    (∃ x ∈ flSix, ∃ y ∈ flSix, x.cls ≠ y.cls) ∧
    (7 : ℕ) ≠ ("" : String).length ∧
    (1 ≤ 3 ∧ 3 < (sort_flowers_by .SL flSix).length ∧
      featAt .SL (sort_flowers_by .SL flSix) 2 ≠ featAt .SL (sort_flowers_by .SL flSix) 3) ∧
    0 < gain ((sort_flowers_by .SL flSix).take 3) ((sort_flowers_by .SL flSix).drop 3) := by
  have hs : sort_flowers_by .SL flSix = flSix := by decide
  have hL := logb_two_three_lt_five_thirds
  obtain ⟨e1, e2, e3, e4⟩ := probe_g_eq flSix
  refine ⟨?_, ⟨u1, by decide, u2, by decide, by decide⟩, by decide,
    ⟨by decide, by rw [hs]; decide, by rw [hs]; decide⟩, ?_⟩
  · apply (build_leaf_iff 7 drw0 6 flSix "" (by decide) (by decide)).mpr
    refine Or.inr (Or.inr ⟨?_, ?_, ?_, ?_⟩)
    · rw [e1]
      exact max_gain_SL_six
    · rw [e2]
      exact max_gain_g_of_const .SW flSix (by decide)
    · rw [e3]
      exact max_gain_g_of_const .PL flSix (by decide)
    · rw [e4]
      exact max_gain_g_of_const .PW flSix (by decide)
  · rw [hs, show flSix.take 3 = [u1, u2, u3] from rfl,
      show flSix.drop 3 = [u4, u5, u6] from rfl, gain_six_3]
    linarith

/-- C6 (the code evaluated at the failing input): on the six flowers whose
first feature (values 1,1,2,4,4,4) and second feature (values 1,1,1,2,2,2)
both achieve best gain `5/3 − log2 3` at a change point — SL at index 3 of
its sorted order, SW at its only change point — with classes 0,1,0,1,1,0,
the build commits a split on SW, although SL attains at a change point of
its own sorted order exactly SW's best gain and comes strictly earlier in
declared order: the claim's greatest-best-gain rule with declared-order
tie-break requires SL, but SL's computed gain collapsed to 0 because its
positive change point was skipped. -/
theorem c6_commits_later_feature :
    (∃ thr flw l r, build_tree 7 drw0 6 flSix6 "" = some (.node .SW thr flw "" l r)) ∧
    feature_rank .SL < feature_rank .SW ∧
    (1 ≤ 3 ∧ 3 < (sort_flowers_by .SL flSix6).length ∧
      featAt .SL (sort_flowers_by .SL flSix6) 2 ≠
        featAt .SL (sort_flowers_by .SL flSix6) 3) ∧
    gain ((sort_flowers_by .SL flSix6).take 3) ((sort_flowers_by .SL flSix6).drop 3) =
      (max_gain .SW flSix6).g ∧
    0 < (max_gain .SW flSix6).g := by
  have hs : sort_flowers_by .SL flSix6 = flSix6 := by decide
  have hL := logb_two_three_lt_five_thirds
  obtain ⟨e1, e2, e3, e4⟩ := probe_g_eq flSix6
  have hSW : (max_gain .SW flSix6).g = 5 / 3 - Real.logb 2 3 := max_gain_SW_vsix
  have hnz : ¬((probe flSix6).1.g = 0 ∧ (probe flSix6).2.1.g = 0 ∧
      (probe flSix6).2.2.1.g = 0 ∧ (probe flSix6).2.2.2.g = 0) := by
    intro hcon
    have hc := hcon.2.1
    rw [e2, hSW] at hc
    linarith
  refine ⟨?_, by decide, ⟨by decide, by rw [hs]; decide, by rw [hs]; decide⟩, ?_, ?_⟩
  · have hsome := build_tree_isSome 7 drw0 6 flSix6 "" (by decide) (by decide)
    obtain ⟨t, ht⟩ := Option.isSome_iff_exists.mp hsome
    have hinv := build_tree_inv 7 drw0 6 flSix6 "" t (by decide) ht
    cases t with
    | leaf lab flw p =>
      have hp : p = "" := hinv.2.1
      subst hp
      have hleaf : (∀ x ∈ flSix6, ∀ y ∈ flSix6, x.cls = y.cls) ∨
          7 = ("" : String).length ∨
          ((probe flSix6).1.g = 0 ∧ (probe flSix6).2.1.g = 0 ∧
            (probe flSix6).2.2.1.g = 0 ∧ (probe flSix6).2.2.2.g = 0) :=
        (build_leaf_iff 7 drw0 6 flSix6 "" (by decide) (by decide)).mp ⟨lab, flw, ht⟩
      rcases hleaf with h | h | h
      · exact absurd (h v1 (by decide) v2 (by decide)) (by decide)
      · exact absurd h (by decide)
      · exact absurd h hnz
    | node f thr flw p l r =>
      obtain ⟨hf, -, -, hp, -, -⟩ := build_node_eq ht
      have hchosen : f = .SW := by rw [hf, chosen_vsix]
      subst hchosen
      subst hp
      exact ⟨thr, flw, l, r, ht⟩
  · rw [hs, show flSix6.take 3 = [v1, v2, v3] from rfl,
      show flSix6.drop 3 = [v4, v5, v6] from rfl, gain_vsix_3, hSW]
  · rw [hSW]
    linarith

end Fdt
